import Mathlib

/-!
# p_band_scan: band-power scanning engine

A shallow embedding of `src/p_band_scan.c`.

Modelling conventions.
* A C `double` is a rational number: arithmetic is exact (no rounding, no NaN, no
  infinities).  The literal `0.0001` is `1/10000`.
* A C array `double* data` passed together with its element count `int num` is a
  `List ℚ`; `num` is the length of the list.
* `int` values that are never negative where they are used (thread ids, counts, the band
  id of the detection loop, the counter of the bar loop) are natural numbers.  The loop
  counter `band` of `thread_fn` is an integer, and `band += num_threads` wraps around at
  `2^31` (`wrap_int`), as the compiled loop does.  The numbers `atoi` returns are
  integers.
* The collaborators declared in `filter.h` and `signal.h` are parameters (`Externals`),
  each a function of its inputs.
* The workers run one after another, in an order given as a list of thread ids.
* The bar of `*` printed on each band line (lines 180-182) has no effect on the table,
  the tags or the verdict and is not part of `BandLine`; it is embedded on its own
  (`bar_loop`, `band_bar`).
-/

namespace PBandScan

/-! ## Constants (lines 14-17) -/

/-- Width of the bar, `#define MAXWIDTH 40`. -/
def MAXWIDTH : ℕ := 40

/-- Threshold multiplier, `#define THRESHOLD 2.0`. -/
def THRESHOLD : ℚ := 2

/-- Lower end of the target window, `#define ALIENS_LOW 50000.0`. -/
def ALIENS_LOW : ℚ := 50000

/-- Upper end of the target window, `#define ALIENS_HIGH 150000.0`. -/
def ALIENS_HIGH : ℚ := 150000

/-! ## Aggregation helpers (lines 67-96) -/

/-- Line 67: `m = data[0]`, then for `i = 1 .. num-1` the entry replaces `m` when it is
strictly greater.  The read `data[0]` has no value on an empty array: `none`. -/
def max_of : List ℚ → Option ℚ
  | [] => none
  | d0 :: rest => some (rest.foldl (fun m x => if x > m then x else m) d0)

/-- Line 78: `s = 0`, `s += data[i]` for every `i`, result `s / num`.  For `num = 0` the C
quotient `0.0 / 0` is a NaN; the rational quotient `0 / 0` stands in its place. -/
def avg_of (data : List ℚ) : ℚ :=
  data.foldl (fun s x => s + x) 0 / (data.length : ℚ)

/-- Result of `remove_dc`: the value it prints and the rewritten buffer. -/
structure DcResult where
  dc : ℚ
  data : List ℚ
  deriving DecidableEq

/-- Line 87: `dc = avg_of(data, num)`, print it, then `data[i] -= dc` for every `i`. -/
def remove_dc (data : List ℚ) : DcResult :=
  let dc := avg_of data
  { dc := dc, data := data.map (fun x => x - dc) }

/-! ## Band edges (lines 40-45 and 167-177) -/

/-- Lines 40-41 and 167-168: `Fc = Fs / 2.0; bandwidth = Fc / num_bands`. -/
def bandwidth (Fs : ℚ) (num_bands : ℕ) : ℚ :=
  Fs / 2 / (num_bands : ℚ)

/-- Lines 45 and 176: `band * bandwidth + 0.0001`. -/
def band_low (Fs : ℚ) (num_bands band : ℕ) : ℚ :=
  (band : ℚ) * bandwidth Fs num_bands + 1 / 10000

/-- Lines 45 and 177: `(band + 1) * bandwidth - 0.0001`. -/
def band_high (Fs : ℚ) (num_bands band : ℕ) : ℚ :=
  ((band + 1 : ℕ) : ℚ) * bandwidth Fs num_bands - 1 / 10000

/-! ## Workers (lines 20-51, 144-165) -/

/-- The collaborators of `filter.h` and `signal.h`, each a function of its inputs: the
coefficient buffer that `generate_band_pass` fills and `hamming_window` rewrites is passed
along as a value, and the power that `convolve_and_compute_power` stores is its result. -/
structure Externals where
  generate_band_pass : ℚ → ℚ → ℚ → ℕ → List ℚ
  hamming_window : ℕ → List ℚ → List ℚ
  convolve_and_compute_power : List ℚ → ℕ → List ℚ → ℚ
  load_text_format_signal : String → Option (List ℚ)
  load_binary_format_signal : String → Option (List ℚ)
  map_binary_format_signal : String → Option (List ℚ)

/-- Lines 20-30, without the pointer `band_power`: the table it points to is the state
the workers share (`Shared`).  `num_samples` is the length of `signal_data`. -/
structure thread_args_t where
  thread_id : ℕ
  num_threads : ℕ
  num_processors : ℕ
  filter_order : ℕ
  num_bands : ℕ
  Fs : ℚ
  signal_data : List ℚ

/-- The table `band_power` of line 144 together with a record of the stores made into it:
`(thread_id, band)` is appended when worker `thread_id` stores into `band_power[band]`. -/
structure Shared where
  band_power : List ℚ
  writes : List (ℕ × ℤ)
  deriving DecidableEq

/-- Lines 45-47: the value one loop iteration stores into `band_power[band]`, from the
fields of the argument record that the three calls read. -/
def band_power_of (ext : Externals) (Fs : ℚ) (filter_order num_bands : ℕ)
    (signal_data : List ℚ) (band : ℕ) : ℚ :=
  let coeffs := ext.generate_band_pass Fs
    (band_low Fs num_bands band) (band_high Fs num_bands band) filter_order
  let coeffs := ext.hamming_window filter_order coeffs
  ext.convolve_and_compute_power signal_data filter_order coeffs

/-- The value an `int` takes when the exact result `x` of an addition is stored in it:
`x` itself inside `[-2^31, 2^31)`, and `x` reduced modulo `2^32` into that range outside
it (two's complement wrap-around). -/
def wrap_int (x : ℤ) : ℤ :=
  (x + 2147483648) % 4294967296 - 2147483648

/-- Lines 45-47 for the counter value `band`: the store through `&band_power[band]` and
its record.  A negative `band` (met only after the counter has wrapped) addresses memory
below the table: the table is left as it is, and the store is recorded. -/
def store_band (ext : Externals) (targs : thread_args_t) (s : Shared) (band : ℤ) : Shared :=
  { band_power :=
      if 0 ≤ band then
        s.band_power.set band.toNat
          (band_power_of ext targs.Fs targs.filter_order targs.num_bands targs.signal_data
            band.toNat)
      else s.band_power
    writes := s.writes ++ [(targs.thread_id, band)] }

/-- Line 44: `for (band = ...; band < num_bands; band += num_threads)`, started at counter
value `band`.  Each unit of `fuel` pays for one evaluation of the loop test; `none` means
the fuel ran out before the test failed. -/
def thread_fn_loop (ext : Externals) (targs : thread_args_t) : ℕ → ℤ → Shared → Option Shared
  | 0, _, _ => none
  | fuel + 1, band, s =>
    if band < (targs.num_bands : ℤ) then
      thread_fn_loop ext targs fuel (wrap_int (band + (targs.num_threads : ℤ)))
        (store_band ext targs s band)
    else some s

/-- Lines 32-51: the loop starts at `band = thread_id`.  (The CPU pinning of lines 35-38
does not touch the table.) -/
def thread_fn (ext : Externals) (targs : thread_args_t) (fuel : ℕ) (s : Shared) :
    Option Shared :=
  thread_fn_loop ext targs fuel (targs.thread_id : ℤ) s

/-- Lines 149-159: the argument record `main` builds for worker `i`. -/
def worker_args (Fs : ℚ) (filter_order num_bands num_threads num_procs : ℕ)
    (signal_data : List ℚ) (i : ℕ) : thread_args_t :=
  { thread_id := i
    num_threads := num_threads
    num_processors := num_procs
    filter_order := filter_order
    num_bands := num_bands
    Fs := Fs
    signal_data := signal_data }

/-- Line 144: `calloc(num_bands, sizeof(double))`, a table of zeros, nothing stored yet. -/
def calloc_table (num_bands : ℕ) : Shared :=
  { band_power := List.replicate num_bands 0, writes := [] }

/-- Lines 144-165: the workers created by `main`, their loops run one after another in the
order given by `order` (a list of thread ids) on the zero-initialised table. -/
def run_workers (ext : Externals) (Fs : ℚ) (filter_order num_bands num_threads num_procs : ℕ)
    (signal_data : List ℚ) (order : List ℕ) (fuel : ℕ) : Option Shared :=
  order.foldlM
    (fun s i =>
      thread_fn ext (worker_args Fs filter_order num_bands num_threads num_procs signal_data i)
        fuel s)
    (calloc_table num_bands)

/-! ## Detection (lines 167-205) -/

/-- The tag printed at the end of a band line. -/
inductive Tag
  | WOW
  | meh
  deriving DecidableEq, Repr

/-- Line 179 and the tag of lines 188, 193, 196: what a band line shows, the bar of `*`
(lines 180-182) apart. -/
structure BandLine where
  band : ℕ
  band_low : ℚ
  band_high : ℚ
  power : ℚ
  tag : Tag
  deriving DecidableEq

/-- The last line of the output (lines 202-205). -/
inductive Verdict
  | possible_aliens (lb ub center : ℚ)
  | no_aliens
  deriving DecidableEq

/-- Lines 172-173 and the lines printed so far. -/
structure Detect where
  lb : ℚ
  ub : ℚ
  wow : Bool
  lines : List BandLine
  deriving DecidableEq

/-- Lines 184-185: the test that guards the power-threshold test. -/
def in_window (lo hi : ℚ) : Bool :=
  (ALIENS_LOW ≤ lo && lo ≤ ALIENS_HIGH) || (ALIENS_LOW ≤ hi && hi ≤ ALIENS_HIGH)

/-- Lines 176-199: one iteration of the detection loop. -/
def detect_step (Fs : ℚ) (num_bands : ℕ) (band_power : List ℚ) (avg_band_power : ℚ)
    (st : Detect) (band : ℕ) : Detect :=
  let lo := band_low Fs num_bands band
  let hi := band_high Fs num_bands band
  let p := band_power.getD band 0
  if in_window lo hi then
    if p > THRESHOLD * avg_band_power then
      { lb := if st.lb < 0 then lo else st.lb
        ub := hi
        wow := true
        lines := st.lines ++ [⟨band, lo, hi, p, Tag.WOW⟩] }
    else
      { st with lines := st.lines ++ [⟨band, lo, hi, p, Tag.meh⟩] }
  else
    { st with lines := st.lines ++ [⟨band, lo, hi, p, Tag.meh⟩] }

/-- Lines 172-200: `lb = ub = -1`, `wow = 0`, then the loop over `band = 0 .. num_bands-1`. -/
def detect_loop (Fs : ℚ) (num_bands : ℕ) (band_power : List ℚ) (avg_band_power : ℚ) :
    Detect :=
  (List.range num_bands).foldl (detect_step Fs num_bands band_power avg_band_power)
    { lb := -1, ub := -1, wow := false, lines := [] }

/-- Lines 202-205. -/
def verdict_of (st : Detect) : Verdict :=
  if st.wow then Verdict.possible_aliens st.lb st.ub ((st.lb + st.ub) / 2)
  else Verdict.no_aliens

/-- What lines 167-205 compute and print from the completed table. -/
structure Report where
  max_band_power : Option ℚ
  avg_band_power : ℚ
  lines : List BandLine
  verdict : Verdict
  deriving DecidableEq

/-- Lines 167-205, for a table `band_power` of `num_bands` entries. -/
def report (Fs : ℚ) (num_bands : ℕ) (band_power : List ℚ) : Report :=
  let max_band_power := max_of band_power
  let avg_band_power := avg_of band_power
  let st := detect_loop Fs num_bands band_power avg_band_power
  { max_band_power := max_band_power
    avg_band_power := avg_band_power
    lines := st.lines
    verdict := verdict_of st }

/-- The two tests of lines 184-187 for band `band`: in the window, and above the
threshold. -/
def is_wow (Fs : ℚ) (num_bands : ℕ) (band_power : List ℚ) (avg_band_power : ℚ) (band : ℕ) :
    Bool :=
  in_window (band_low Fs num_bands band) (band_high Fs num_bands band) &&
    decide (band_power.getD band 0 > THRESHOLD * avg_band_power)

/-- Band `b` is tagged WOW in the printed band lines. -/
def tagged_wow (lines : List BandLine) (b : ℕ) : Bool :=
  lines.any fun l => decide (l.band = b) && decide (l.tag = Tag.WOW)

/-- Lines 180-182: `for (i = ...; i < x; i++) printf("*")`, started at counter value `i`,
where `x` is the bound `MAXWIDTH * (band_power[band] / max_band_power)`.  The result is
the number of `*` printed.  Each unit of `fuel` pays for one evaluation of the loop test;
`none` means the fuel ran out before the test failed. -/
def bar_loop (x : ℚ) : ℕ → ℕ → Option ℕ
  | 0, _ => none
  | fuel + 1, i =>
    if (i : ℚ) < x then (bar_loop x fuel (i + 1)).map (fun stars => stars + 1) else some 0

/-- Lines 180-182 for band `band`: the loop starts at `i = 0`. -/
def band_bar (band_power : List ℚ) (max_band_power : ℚ) (band fuel : ℕ) : Option ℕ :=
  bar_loop ((MAXWIDTH : ℚ) * (band_power.getD band 0 / max_band_power)) fuel 0

/-! ## The program (lines 100-210) -/

/-- The command line as `main` reads it: `argc`, the strings `argv[1]` and `argv[2]`, and
the numbers that `atof` and `atoi` return for `argv[3] .. argv[7]`. -/
structure Args where
  argc : ℕ
  type_arg : String
  sig_file : String
  Fs : ℚ
  filter_order : ℤ
  num_bands : ℤ
  num_threads : ℤ
  num_procs : ℤ

/-- What is written to standard output, one constructor per `printf` group. -/
inductive Out
  | usage
  | header (sig_type : Char) (sig_file : String) (Fs : ℚ)
      (filter_order num_bands num_threads num_procs : ℤ)
  | load_or_map
  | unknown_signal_type
  | unable_to_load
  | removing_dc (dc : ℚ)
  | band (line : BandLine)
  | verdict (v : Verdict)
  deriving DecidableEq

/-- How the process ends: `main` returns a code, an `assert` aborts it, or the workers
never finish. -/
inductive Exit
  | returned (code : ℤ)
  | aborted
  | no_exit
  deriving DecidableEq

/-- The end of the process and everything it printed before. -/
structure MainResult where
  exit : Exit
  out : List Out
  deriving DecidableEq

/-- Line 107: `toupper(argv[1][0])`; the first `char` of an empty string is the
terminating zero. -/
def sig_type_of (type_arg : String) : Char :=
  (type_arg.data.headD (Char.ofNat 0)).toUpper

/-- Lines 127-134: the loader chosen by `sig_type`; the outer `none` is the `default`
branch, the inner one a loader that returns a null pointer. -/
def load_signal (ext : Externals) (sig_type : Char) (sig_file : String) :
    Option (Option (List ℚ)) :=
  if sig_type = 'T' then some (ext.load_text_format_signal sig_file)
  else if sig_type = 'B' then some (ext.load_binary_format_signal sig_file)
  else if sig_type = 'M' then some (ext.map_binary_format_signal sig_file)
  else none

/-- Lines 100-210.  `order` is the order in which the workers' loops are run; each loop
gets `2^32 + 1` units of fuel: the counter takes at most `2^32` values, so a loop whose
test has not failed by then is in a cycle. -/
def main (ext : Externals) (a : Args) (order : List ℕ) : MainResult :=
  if a.argc ≠ 8 then { exit := Exit.returned (-1), out := [Out.usage] }
  else
    let sig_type := sig_type_of a.type_arg
    if ¬ (a.Fs > 0) then { exit := Exit.aborted, out := [] }
    else if ¬ (a.filter_order > 0 ∧ a.filter_order % 2 = 0) then
      { exit := Exit.aborted, out := [] }
    else if ¬ (a.num_bands > 0) then { exit := Exit.aborted, out := [] }
    else if ¬ (a.num_threads > 0) then { exit := Exit.aborted, out := [] }
    else if ¬ (a.num_procs > 0) then { exit := Exit.aborted, out := [] }
    else
      let out :=
        [Out.header sig_type a.sig_file a.Fs a.filter_order a.num_bands a.num_threads
            a.num_procs,
          Out.load_or_map]
      match load_signal ext sig_type a.sig_file with
      | none => { exit := Exit.returned (-1), out := out ++ [Out.unknown_signal_type] }
      | some none => { exit := Exit.returned (-1), out := out ++ [Out.unable_to_load] }
      | some (some sig_data) =>
        let r := remove_dc sig_data
        let out := out ++ [Out.removing_dc r.dc]
        let num_bands := a.num_bands.toNat
        match run_workers ext a.Fs a.filter_order.toNat num_bands a.num_threads.toNat
            a.num_procs.toNat r.data order 4294967297 with
        | none => { exit := Exit.no_exit, out := out }
        | some s =>
          let rep := report a.Fs num_bands s.band_power
          { exit := Exit.returned 0
            out := out ++ rep.lines.map Out.band ++ [Out.verdict rep.verdict] }

/-! ## A concrete instance -/

/-- Stand-ins for the collaborators, used to run the program on concrete inputs: the
"filter" is the pair of band edges, the window leaves it alone, and the "power" is the
number of samples plus the upper band edge. -/
def toy_externals : Externals :=
  { generate_band_pass := fun _ lo hi _ => [lo, hi]
    hamming_window := fun _ coeffs => coeffs
    convolve_and_compute_power := fun samples _ coeffs => (samples.length : ℚ) + coeffs.getD 1 0
    load_text_format_signal := fun _ => some []
    load_binary_format_signal := fun _ => some [1, 2, 3]
    map_binary_format_signal := fun _ => none }

/-! ## Aggregation: `max_of`, `avg_of`, `remove_dc` -/

theorem foldl_add_eq_sum (data : List ℚ) (s : ℚ) :
    data.foldl (fun s x => s + x) s = s + data.sum := by
  induction data generalizing s with
  | nil => simp
  | cons x xs ih => simp [ih, add_assoc]

theorem avg_of_eq (data : List ℚ) : avg_of data = data.sum / (data.length : ℚ) := by
  simp [avg_of, foldl_add_eq_sum]

theorem sum_map_sub_const (data : List ℚ) (c : ℚ) :
    (data.map (fun x => x - c)).sum = data.sum - (data.length : ℚ) * c := by
  induction data with
  | nil => simp
  | cons x xs ih =>
    simp only [List.map_cons, List.sum_cons, List.length_cons, ih]
    push_cast
    ring

theorem foldl_max_spec (rest : List ℚ) (d0 : ℚ) :
    (rest.foldl (fun m x => if x > m then x else m) d0 = d0 ∨
      rest.foldl (fun m x => if x > m then x else m) d0 ∈ rest) ∧
    d0 ≤ rest.foldl (fun m x => if x > m then x else m) d0 ∧
    ∀ x ∈ rest, x ≤ rest.foldl (fun m x => if x > m then x else m) d0 := by
  induction rest generalizing d0 with
  | nil => simp
  | cons y ys ih =>
    simp only [List.foldl_cons, List.mem_cons]
    obtain ⟨h1, h2, h3⟩ := ih (if y > d0 then y else d0)
    refine ⟨?_, ?_, ?_⟩
    · rcases h1 with h1 | h1
      · by_cases hy : y > d0
        · right; left; rw [h1, if_pos hy]
        · left; rw [h1, if_neg hy]
      · right; right; exact h1
    · refine le_trans ?_ h2
      by_cases hy : y > d0
      · rw [if_pos hy]; exact le_of_lt hy
      · rw [if_neg hy]
    · intro x hx
      rcases hx with hx | hx
      · subst hx
        refine le_trans ?_ h2
        by_cases hy : x > d0
        · rw [if_pos hy]
        · rw [if_neg hy]; exact not_lt.mp hy
      · exact h3 x hx

/-- C3: for a non-empty sample sequence, `remove_dc` keeps the length, reports the
arithmetic mean of the original samples, replaces every sample by itself minus that mean,
and the mean of the result, as `avg_of` computes it, is zero. -/
theorem remove_dc_centres (data : List ℚ) (h : data ≠ []) :
    (remove_dc data).data.length = data.length ∧
    (remove_dc data).dc = data.sum / (data.length : ℚ) ∧
    (∀ (i : ℕ) (x : ℚ), data[i]? = some x →
      (remove_dc data).data[i]? = some (x - data.sum / (data.length : ℚ))) ∧
    avg_of (remove_dc data).data = 0 := by
  have hn : (data.length : ℚ) ≠ 0 := by
    have : data.length ≠ 0 := fun h0 => h (List.length_eq_zero.mp h0)
    exact_mod_cast this
  refine ⟨by simp [remove_dc], by simp [remove_dc, avg_of_eq], ?_, ?_⟩
  · intro i x hx
    simp [remove_dc, avg_of_eq, hx]
  · rw [avg_of_eq]
    simp only [remove_dc, sum_map_sub_const, avg_of_eq, List.length_map]
    field_simp

theorem remove_dc_centres_witness :
    ([3, 5, 10] : List ℚ) ≠ [] ∧ avg_of (remove_dc [3, 5, 10]).data = 0 :=
  ⟨by simp, (remove_dc_centres [3, 5, 10] (by simp)).2.2.2⟩

/-- C4: on a non-empty table `max_of` returns an entry of the table that is at least
every entry, and `avg_of` returns the sum of the entries divided by their number; on
`[1, 4, 9]` they return `9` and `14/3`. -/
theorem max_of_avg_of_correct (data : List ℚ) (h : data ≠ []) :
    (∃ m, max_of data = some m ∧ m ∈ data ∧ ∀ x ∈ data, x ≤ m) ∧
    avg_of data = data.sum / (data.length : ℚ) ∧
    max_of [1, 4, 9] = some 9 ∧ avg_of [1, 4, 9] = 14 / 3 := by
  refine ⟨?_, avg_of_eq data, by decide, by norm_num [avg_of]⟩
  cases data with
  | nil => exact absurd rfl h
  | cons d0 rest =>
    obtain ⟨h1, h2, h3⟩ := foldl_max_spec rest d0
    refine ⟨_, rfl, ?_, ?_⟩
    · rcases h1 with h1 | h1
      · rw [h1]; exact List.mem_cons_self _ _
      · exact List.mem_cons_of_mem _ h1
    · intro x hx
      rcases List.mem_cons.mp hx with hx | hx
      · rw [hx]; exact h2
      · exact h3 x hx

theorem max_of_avg_of_correct_witness :
    ([2, 7, 3] : List ℚ) ≠ [] ∧ ∃ m, max_of [2, 7, 3] = some m ∧ m ∈ ([2, 7, 3] : List ℚ) ∧
      ∀ x ∈ ([2, 7, 3] : List ℚ), x ≤ m :=
  ⟨by simp, (max_of_avg_of_correct [2, 7, 3] (by simp)).1⟩

/-! ## Workers: the round-robin partition -/

theorem foldl_set_getElem? (P : ℕ → ℚ) (L : List ℕ) (T : List ℚ) (i : ℕ) :
    (L.foldl (fun t b => t.set b (P b)) T)[i]? =
      if i ∈ L then T[i]?.map (fun _ => P i) else T[i]? := by
  induction L generalizing T with
  | nil => simp
  | cons b L ih =>
    rw [List.foldl_cons, ih, List.getElem?_set]
    by_cases hbi : b = i
    · subst hbi
      by_cases hlen : b < T.length
      · simp [hlen, List.getElem?_eq_getElem hlen]
      · have hnone : T[b]? = none := List.getElem?_eq_none (not_lt.mp hlen)
        simp [hlen, hnone]
    · have hib : ¬ i = b := fun h => hbi h.symm
      simp [hbi, hib]

theorem foldl_set_length (P : ℕ → ℚ) (L : List ℕ) (T : List ℚ) :
    (L.foldl (fun t b => t.set b (P b)) T).length = T.length := by
  induction L generalizing T with
  | nil => rfl
  | cons b L ih => rw [List.foldl_cons, ih, List.length_set]

/-- Inside the range of `int`, storing a sum changes nothing. -/
theorem wrap_int_of_range (x : ℤ) (h0 : -2147483648 ≤ x) (h1 : x < 2147483648) :
    wrap_int x = x := by
  unfold wrap_int
  omega

/-- The store of one iteration when the counter is not negative. -/
theorem store_band_natCast (ext : Externals) (targs : thread_args_t) (s : Shared) (band : ℕ) :
    store_band ext targs s (band : ℤ) =
      { band_power := s.band_power.set band
          (band_power_of ext targs.Fs targs.filter_order targs.num_bands targs.signal_data
            band)
        writes := s.writes ++ [(targs.thread_id, (band : ℤ))] } := by
  simp [store_band]

/-- The loop of line 44 started at a counter value `band ≥ 0`: with `num_threads ≥ 1`,
`num_bands + num_threads ≤ 2^31` (so that the counter never wraps) and more fuel than
`num_bands - band` it ends, having stored into the slots of a strictly increasing list of
bands: those from `band` on that are below `num_bands` and congruent to `band` modulo
`num_threads`. -/
theorem thread_fn_loop_spec (ext : Externals) (targs : thread_args_t)
    (hnt : 1 ≤ targs.num_threads)
    (hbound : targs.num_bands + targs.num_threads ≤ 2147483648) :
    ∀ (fuel band : ℕ) (s : Shared), targs.num_bands - band < fuel →
      ∃ L : List ℕ,
        thread_fn_loop ext targs fuel (band : ℤ) s =
          some
            { band_power :=
                L.foldl
                  (fun t b =>
                    t.set b
                      (band_power_of ext targs.Fs targs.filter_order targs.num_bands
                        targs.signal_data b))
                  s.band_power
              writes := s.writes ++ L.map (fun b : ℕ => (targs.thread_id, (b : ℤ))) } ∧
        L.Sorted (fun a b => a < b) ∧
        ∀ b, b ∈ L ↔
          (band ≤ b ∧ b < targs.num_bands ∧ b % targs.num_threads = band % targs.num_threads) := by
  intro fuel
  induction fuel with
  | zero => intro band s h; omega
  | succ fuel ih =>
    intro band s h
    by_cases hb : band < targs.num_bands
    · have hlt : (band : ℤ) < (targs.num_bands : ℤ) := by exact_mod_cast hb
      have hwrap : wrap_int ((band : ℤ) + (targs.num_threads : ℤ)) =
          ((band + targs.num_threads : ℕ) : ℤ) := by
        rw [wrap_int_of_range _ (by omega) (by omega)]
        push_cast
        rfl
      obtain ⟨L, hrun, hsorted, hmem⟩ :=
        ih (band + targs.num_threads) (store_band ext targs s (band : ℤ)) (by omega)
      refine ⟨band :: L, ?_, ?_, ?_⟩
      · rw [store_band_natCast] at hrun
        rw [thread_fn_loop, if_pos hlt, hwrap, store_band_natCast, hrun]
        simp
      · refine List.sorted_cons.mpr ⟨?_, hsorted⟩
        intro b hbL
        have := ((hmem b).mp hbL).1
        omega
      · intro b
        rw [List.mem_cons, hmem b, Nat.add_mod_right]
        constructor
        · rintro (rfl | ⟨h1, h2, h3⟩)
          · exact ⟨le_refl _, hb, rfl⟩
          · exact ⟨by omega, h2, h3⟩
        · rintro ⟨h1, h2, h3⟩
          by_cases hbb : b = band
          · exact Or.inl hbb
          · right
            refine ⟨?_, h2, h3⟩
            have hdvd : targs.num_threads ∣ b - band :=
              (Nat.modEq_iff_dvd' h1).mp h3.symm
            have hle := Nat.le_of_dvd (by omega) hdvd
            omega
    · have hlt : ¬ (band : ℤ) < (targs.num_bands : ℤ) := by exact_mod_cast hb
      refine ⟨[], ?_, List.sorted_nil, ?_⟩
      · simp [thread_fn_loop, hlt]
      · intro b
        simp only [List.not_mem_nil, false_iff]
        omega

/-- One worker of `main`: with `num_threads ≥ 1`, `num_bands + num_threads ≤ 2^31`,
`thread_id < num_threads` and more fuel than `num_bands`, `thread_fn` ends, having stored
into exactly the slots `b < num_bands` with `b % num_threads = thread_id`, in increasing
order. -/
theorem thread_fn_spec (ext : Externals) (Fs : ℚ) (filter_order num_bands num_threads
    num_procs : ℕ) (signal_data : List ℚ) (t fuel : ℕ) (s : Shared)
    (hnt : 1 ≤ num_threads) (hbound : num_bands + num_threads ≤ 2147483648)
    (ht : t < num_threads) (hfuel : num_bands < fuel) :
    thread_fn ext (worker_args Fs filter_order num_bands num_threads num_procs signal_data t)
        fuel s =
      some
        { band_power :=
            ((List.range num_bands).filter (fun b => b % num_threads = t)).foldl
              (fun T b => T.set b (band_power_of ext Fs filter_order num_bands signal_data b))
              s.band_power
          writes :=
            s.writes ++
              ((List.range num_bands).filter (fun b => b % num_threads = t)).map
                (fun b : ℕ => (t, (b : ℤ))) } := by
  obtain ⟨L, hrun, hsorted, hmem⟩ :=
    thread_fn_loop_spec ext
      (worker_args Fs filter_order num_bands num_threads num_procs signal_data t) hnt hbound
      fuel t s (by simp only [worker_args]; omega)
  have hL : L = (List.range num_bands).filter (fun b => b % num_threads = t) := by
    refine List.eq_of_perm_of_sorted ?_ hsorted
      (List.Sorted.filter _ (List.sorted_lt_range num_bands))
    refine (List.perm_ext_iff_of_nodup hsorted.nodup
      ((List.nodup_range num_bands).filter _)).mpr ?_
    intro b
    rw [hmem b]
    simp only [worker_args, List.mem_filter, List.mem_range, decide_eq_true_eq,
      Nat.mod_eq_of_lt ht]
    constructor
    · rintro ⟨_, h2, h3⟩
      exact ⟨h2, h3⟩
    · rintro ⟨h2, h3⟩
      exact ⟨h3 ▸ Nat.mod_le b num_threads, h2, h3⟩
  rw [hL] at hrun
  exact hrun

/-- The workers of `main` run one after another in the order `order`: with every id of
`order` below `num_threads`, each worker ends and the state is the initial one with each
worker's stores applied in turn. -/
theorem foldlM_thread_fn_spec (ext : Externals) (Fs : ℚ) (filter_order num_bands num_threads
    num_procs : ℕ) (signal_data : List ℚ) (fuel : ℕ)
    (hnt : 1 ≤ num_threads) (hbound : num_bands + num_threads ≤ 2147483648)
    (hfuel : num_bands < fuel) :
    ∀ (order : List ℕ) (s : Shared), (∀ t ∈ order, t < num_threads) →
      order.foldlM
          (fun s i =>
            thread_fn ext
              (worker_args Fs filter_order num_bands num_threads num_procs signal_data i)
              fuel s)
          s =
        some
          { band_power :=
              (order.flatMap fun t =>
                  (List.range num_bands).filter (fun b => b % num_threads = t)).foldl
                (fun T b => T.set b (band_power_of ext Fs filter_order num_bands signal_data b))
                s.band_power
            writes :=
              s.writes ++
                order.flatMap fun t =>
                  ((List.range num_bands).filter (fun b => b % num_threads = t)).map
                    (fun b : ℕ => (t, (b : ℤ))) } := by
  intro order
  induction order with
  | nil => intro s _; simp
  | cons t order ih =>
    intro s hlt
    have ht : t < num_threads := hlt t (List.mem_cons_self _ _)
    have hrest : ∀ u ∈ order, u < num_threads := fun u hu => hlt u (List.mem_cons_of_mem _ hu)
    rw [List.foldlM_cons,
      thread_fn_spec ext Fs filter_order num_bands num_threads num_procs signal_data t fuel s
        hnt hbound ht hfuel]
    simp only [Option.bind_eq_bind, Option.some_bind]
    rw [ih _ hrest]
    simp [List.flatMap_cons, List.foldl_append, List.append_assoc]

/-- The stores into slot `b` among those of the worker with id `t`. -/
theorem owned_writes_filter (num_bands num_threads t b : ℕ) (hb : b < num_bands) :
    (((List.range num_bands).filter (fun x => x % num_threads = t)).map
        (fun x : ℕ => (t, (x : ℤ)))).filter (fun w => w.2 = (b : ℤ)) =
      if t = b % num_threads then [(t, (b : ℤ))] else [] := by
  have hrange : (List.range num_bands).filter (fun x => decide (x = b)) = [b] := by
    rw [List.filter_eq,
      List.count_eq_one_of_mem (List.nodup_range num_bands) (List.mem_range.mpr hb)]
    rfl
  rw [List.filter_map]
  have hcomp : ((fun w : ℕ × ℤ => decide (w.2 = (b : ℤ))) ∘ fun x : ℕ => (t, (x : ℤ))) =
      fun x => decide (x = b) := by
    funext x
    simp
  rw [hcomp, List.filter_comm, hrange]
  by_cases h : t = b % num_threads
  · simp [h]
  · have h2 : ¬ b % num_threads = t := fun e => h e.symm
    simp [h, h2]

/-- The stores into slot `b` among those of the workers of `order`: one for each
occurrence of the id `b % num_threads` in `order`. -/
theorem writes_filter (num_bands num_threads b : ℕ) (hb : b < num_bands) (order : List ℕ) :
    (order.flatMap fun t =>
        ((List.range num_bands).filter (fun x => x % num_threads = t)).map
          (fun x : ℕ => (t, (x : ℤ)))).filter (fun w => w.2 = (b : ℤ)) =
      (order.filter (fun t => t = b % num_threads)).map (fun t => (t, (b : ℤ))) := by
  induction order with
  | nil => simp
  | cons t order ih =>
    rw [List.flatMap_cons, List.filter_append, ih, owned_writes_filter _ _ _ _ hb,
      List.filter_cons]
    by_cases h : t = b % num_threads
    · simp [h]
    · simp [h]

/-- One iteration of the loop of line 44 whose test succeeds. -/
theorem thread_fn_loop_step (ext : Externals) (targs : thread_args_t) (fuel : ℕ) (band : ℤ)
    (s : Shared) (h : band < (targs.num_bands : ℤ)) :
    thread_fn_loop ext targs (fuel + 1) band s =
      thread_fn_loop ext targs fuel (wrap_int (band + (targs.num_threads : ℤ)))
        (store_band ext targs s band) := by
  rw [thread_fn_loop, if_pos h]

/-- With `2147483647` bands and two workers, the loop of worker 0 never ends: its counter
stays even, so it stays below `num_bands`, through every wrap-around. -/
theorem even_counter_never_ends (ext : Externals) (Fs : ℚ) (filter_order num_procs : ℕ)
    (signal_data : List ℚ) :
    ∀ (fuel : ℕ) (band : ℤ) (s : Shared), band % 2 = 0 → -2147483648 ≤ band →
      band < 2147483648 →
      thread_fn_loop ext
        (worker_args Fs filter_order 2147483647 2 num_procs signal_data 0) fuel band s =
        none := by
  intro fuel
  induction fuel with
  | zero => intro band s _ _ _; rfl
  | succ fuel ih =>
    intro band s heven hlo hhi
    have hlt : band < ((worker_args Fs filter_order 2147483647 2 num_procs signal_data
        0).num_bands : ℤ) := by
      simp only [worker_args]
      push_cast
      omega
    rw [thread_fn_loop, if_pos hlt]
    apply ih
    · simp only [worker_args, wrap_int]
      push_cast
      omega
    · simp only [worker_args, wrap_int]
      push_cast
      omega
    · simp only [worker_args, wrap_int]
      push_cast
      omega

/-- C1, as stated, fails: with `num_bands = 2147483647` and two workers, the counter of
worker 0 passes `2147483646`, wraps around to `-2147483648` and stays below `num_bands`
for ever: the worker never ends, whatever the fuel, and so neither does the pool. -/
theorem partition_overflow_counterexample :
    (1 ≤ 2147483647 ∧ 1 ≤ 2 ∧ [0, 1].Perm (List.range 2)) ∧
    wrap_int (2147483646 + 2) = -2147483648 ∧
    (∀ (fuel : ℕ) (s : Shared),
      thread_fn toy_externals (worker_args 8 2 2147483647 2 1 [1, 2] 0) fuel s = none) ∧
    (∀ fuel : ℕ, run_workers toy_externals 8 2 2147483647 2 1 [1, 2] [0, 1] fuel = none) := by
  have hworker : ∀ (fuel : ℕ) (s : Shared),
      thread_fn toy_externals (worker_args 8 2 2147483647 2 1 [1, 2] 0) fuel s = none := by
    intro fuel s
    exact even_counter_never_ends toy_externals 8 2 1 [1, 2] fuel 0 s (by decide) (by decide)
      (by decide)
  refine ⟨⟨by decide, by decide, by decide⟩, by decide, hworker, ?_⟩
  intro fuel
  unfold run_workers
  rw [List.foldlM_cons, hworker fuel]
  rfl

/-- C1, amended: with `num_threads ≥ 1` and `num_bands + num_threads ≤ 2^31`, the workers
`0 .. num_threads-1` run in any order and each with more fuel than `num_bands`: every
worker ends, the stores into slot `b` are exactly one, made by worker `b % num_threads`,
for every `b < num_bands`, and every store is the store of some worker `b % num_threads`
into a slot `b < num_bands`. -/
theorem round_robin_partition (ext : Externals) (Fs : ℚ) (filter_order num_bands num_threads
    num_procs : ℕ) (signal_data : List ℚ) (order : List ℕ) (fuel : ℕ)
    (hnt : 1 ≤ num_threads) (hbound : num_bands + num_threads ≤ 2147483648)
    (horder : order.Perm (List.range num_threads)) (hfuel : num_bands < fuel) :
    ∃ s, run_workers ext Fs filter_order num_bands num_threads num_procs signal_data order
          fuel = some s ∧
      (∀ b : ℕ, b < num_bands →
        s.writes.filter (fun w => w.2 = (b : ℤ)) = [(b % num_threads, (b : ℤ))]) ∧
      (∀ w ∈ s.writes, ∃ b : ℕ, b < num_bands ∧ w = (b % num_threads, (b : ℤ))) := by
  have hlt : ∀ t ∈ order, t < num_threads := fun t ht =>
    List.mem_range.mp ((horder.mem_iff).mp ht)
  have hrun := foldlM_thread_fn_spec ext Fs filter_order num_bands num_threads num_procs
    signal_data fuel hnt hbound hfuel order (calloc_table num_bands) hlt
  refine ⟨_, hrun, ?_, ?_⟩
  · intro b hb
    simp only [calloc_table, List.nil_append]
    rw [writes_filter _ _ _ hb, List.filter_eq, horder.count_eq,
      List.count_eq_one_of_mem (List.nodup_range num_threads)
        (List.mem_range.mpr (Nat.mod_lt _ (by omega)))]
    rfl
  · intro w hw
    simp only [calloc_table, List.nil_append, List.mem_flatMap, List.mem_map, List.mem_filter,
      List.mem_range, decide_eq_true_eq] at hw
    obtain ⟨t, _, x, ⟨hx1, hx2⟩, rfl⟩ := hw
    exact ⟨x, hx1, by rw [hx2]⟩

theorem round_robin_partition_witness :
    ∃ s, run_workers toy_externals 8 2 5 2 1 [1, 2] [1, 0] 6 = some s ∧
      (∀ b : ℕ, b < 5 → s.writes.filter (fun w => w.2 = (b : ℤ)) = [(b % 2, (b : ℤ))]) ∧
      (∀ w ∈ s.writes, ∃ b : ℕ, b < 5 ∧ w = (b % 2, (b : ℤ))) :=
  round_robin_partition toy_externals 8 2 5 2 1 [1, 2] [1, 0] 6 (by decide) (by decide)
    (by decide) (by decide)

/-- The table the workers leave: slot `b` holds the value of the pipeline for band `b`. -/
theorem run_workers_table (ext : Externals) (Fs : ℚ) (filter_order num_bands num_threads
    num_procs : ℕ) (signal_data : List ℚ) (order : List ℕ) (fuel : ℕ)
    (hnt : 1 ≤ num_threads) (hbound : num_bands + num_threads ≤ 2147483648)
    (horder : order.Perm (List.range num_threads)) (hfuel : num_bands < fuel) :
    ∃ s, run_workers ext Fs filter_order num_bands num_threads num_procs signal_data order
          fuel = some s ∧
      s.band_power =
        (List.range num_bands).map (band_power_of ext Fs filter_order num_bands signal_data) := by
  have hlt : ∀ t ∈ order, t < num_threads := fun t ht =>
    List.mem_range.mp ((horder.mem_iff).mp ht)
  have hrun := foldlM_thread_fn_spec ext Fs filter_order num_bands num_threads num_procs
    signal_data fuel hnt hbound hfuel order (calloc_table num_bands) hlt
  refine ⟨_, hrun, ?_⟩
  apply List.ext_getElem?
  intro i
  simp only [calloc_table]
  rw [foldl_set_getElem? (band_power_of ext Fs filter_order num_bands signal_data),
    List.getElem?_map, List.getElem?_replicate]
  by_cases hi : i < num_bands
  · have hmem : i ∈ order.flatMap fun t =>
        (List.range num_bands).filter (fun b => b % num_threads = t) := by
      rw [List.mem_flatMap]
      refine ⟨i % num_threads, (horder.mem_iff).mpr
        (List.mem_range.mpr (Nat.mod_lt _ (by omega))), ?_⟩
      simp [hi]
    simp [hmem, hi, List.getElem?_range hi]
  · have hnone : (List.range num_bands)[i]? = none :=
      List.getElem?_eq_none (by simpa using hi)
    simp [hi, hnone]

/-- C2, as stated, fails: with `num_bands = 2147483647`, one worker ends and leaves
`band_power[b] = P(b)` in every slot, while with two workers, run in either order, the
counter of worker 0 wraps around and the pool never ends, whatever the fuel: no final
table, and no verdict, for `num_threads = 2`. -/
theorem determinism_overflow_counterexample :
    (∃ s, run_workers toy_externals 8 2 2147483647 1 1 [1, 2] [0] 2147483648 = some s ∧
      s.band_power =
        (List.range 2147483647).map (band_power_of toy_externals 8 2 2147483647 [1, 2])) ∧
    (∀ fuel : ℕ, run_workers toy_externals 8 2 2147483647 2 1 [1, 2] [0, 1] fuel = none) ∧
    (∀ fuel : ℕ, run_workers toy_externals 8 2 2147483647 2 1 [1, 2] [1, 0] fuel = none) := by
  have hworker : ∀ (fuel : ℕ) (s : Shared),
      thread_fn toy_externals (worker_args 8 2 2147483647 2 1 [1, 2] 0) fuel s = none := by
    intro fuel s
    exact even_counter_never_ends toy_externals 8 2 1 [1, 2] fuel 0 s (by decide) (by decide)
      (by decide)
  refine ⟨?_, ?_, ?_⟩
  · exact run_workers_table toy_externals 8 2 2147483647 1 1 [1, 2] [0] 2147483648
      (by decide) (by decide) (by decide) (by decide)
  · intro fuel
    unfold run_workers
    rw [List.foldlM_cons, hworker fuel]
    rfl
  · intro fuel
    unfold run_workers
    rw [List.foldlM_cons]
    cases thread_fn toy_externals (worker_args 8 2 2147483647 2 1 [1, 2] 1) fuel
        (calloc_table 2147483647) with
    | none => rfl
    | some s' =>
      simp only [Option.bind_eq_bind, Option.some_bind]
      rw [List.foldlM_cons, hworker fuel]
      rfl

/-- C2, amended: with the pipeline a function of (samples, Fs, filter_order, num_bands,
band), the workers' loops run one after another in any order on the zeroed table leave
`band_power[b] = P(b)` for every band, whatever `num_threads ≥ 1` with
`num_bands + num_threads ≤ 2^31` is; so two such runs that differ in the number of workers
and in their order end with the same table and the same report, verdict included. -/
theorem no_race_determinism (ext : Externals) (Fs : ℚ) (filter_order num_bands num_procs : ℕ)
    (signal_data : List ℚ) (num_threads₁ num_threads₂ : ℕ) (order₁ order₂ : List ℕ)
    (fuel₁ fuel₂ : ℕ)
    (hnt₁ : 1 ≤ num_threads₁) (hnt₂ : 1 ≤ num_threads₂)
    (hbound₁ : num_bands + num_threads₁ ≤ 2147483648)
    (hbound₂ : num_bands + num_threads₂ ≤ 2147483648)
    (horder₁ : order₁.Perm (List.range num_threads₁))
    (horder₂ : order₂.Perm (List.range num_threads₂))
    (hfuel₁ : num_bands < fuel₁) (hfuel₂ : num_bands < fuel₂) :
    ∃ s₁ s₂,
      run_workers ext Fs filter_order num_bands num_threads₁ num_procs signal_data order₁
          fuel₁ = some s₁ ∧
      run_workers ext Fs filter_order num_bands num_threads₂ num_procs signal_data order₂
          fuel₂ = some s₂ ∧
      s₁.band_power =
        (List.range num_bands).map (band_power_of ext Fs filter_order num_bands signal_data) ∧
      (∀ b, b < num_bands →
        s₁.band_power[b]? = some (band_power_of ext Fs filter_order num_bands signal_data b)) ∧
      s₂.band_power = s₁.band_power ∧
      report Fs num_bands s₂.band_power = report Fs num_bands s₁.band_power ∧
      (report Fs num_bands s₂.band_power).verdict =
        (report Fs num_bands s₁.band_power).verdict := by
  obtain ⟨s₁, h₁, ht₁⟩ := run_workers_table ext Fs filter_order num_bands num_threads₁
    num_procs signal_data order₁ fuel₁ hnt₁ hbound₁ horder₁ hfuel₁
  obtain ⟨s₂, h₂, ht₂⟩ := run_workers_table ext Fs filter_order num_bands num_threads₂
    num_procs signal_data order₂ fuel₂ hnt₂ hbound₂ horder₂ hfuel₂
  refine ⟨s₁, s₂, h₁, h₂, ht₁, ?_, ht₂.trans ht₁.symm, by rw [ht₂, ht₁], by rw [ht₂, ht₁]⟩
  intro b hb
  rw [ht₁, List.getElem?_map, List.getElem?_range hb]
  rfl

theorem no_race_determinism_witness :
    ∃ s₁ s₂,
      run_workers toy_externals 8 2 5 1 1 [1, 2] [0] 6 = some s₁ ∧
      run_workers toy_externals 8 2 5 4 1 [1, 2] [2, 0, 3, 1] 9 = some s₂ ∧
      s₁.band_power = (List.range 5).map (band_power_of toy_externals 8 2 5 [1, 2]) ∧
      (∀ b, b < 5 → s₁.band_power[b]? = some (band_power_of toy_externals 8 2 5 [1, 2] b)) ∧
      s₂.band_power = s₁.band_power ∧
      report 8 5 s₂.band_power = report 8 5 s₁.band_power ∧
      (report 8 5 s₂.band_power).verdict = (report 8 5 s₁.band_power).verdict :=
  no_race_determinism toy_externals 8 2 5 1 [1, 2] 1 4 [0] [2, 0, 3, 1] 6 9 (by decide)
    (by decide) (by decide) (by decide) (by decide) (by decide) (by decide) (by decide)

/-! ## Detection -/

theorem bandwidth_nonneg (Fs : ℚ) (num_bands : ℕ) (hFs : 0 < Fs) :
    0 ≤ bandwidth Fs num_bands := by
  unfold bandwidth
  exact div_nonneg (div_nonneg (le_of_lt hFs) (by norm_num)) (Nat.cast_nonneg _)

theorem band_low_pos (Fs : ℚ) (num_bands band : ℕ) (hFs : 0 < Fs) :
    0 < band_low Fs num_bands band := by
  unfold band_low
  have h := mul_nonneg (Nat.cast_nonneg band : (0 : ℚ) ≤ (band : ℚ))
    (bandwidth_nonneg Fs num_bands hFs)
  linarith

/-- One iteration of the detection loop, by cases on the two tests. -/
theorem detect_step_eq (Fs : ℚ) (num_bands : ℕ) (band_power : List ℚ) (avg : ℚ)
    (st : Detect) (band : ℕ) :
    detect_step Fs num_bands band_power avg st band =
      if is_wow Fs num_bands band_power avg band then
        { lb := if st.lb < 0 then band_low Fs num_bands band else st.lb
          ub := band_high Fs num_bands band
          wow := true
          lines := st.lines ++
            [⟨band, band_low Fs num_bands band, band_high Fs num_bands band,
              band_power.getD band 0, Tag.WOW⟩] }
      else
        { st with
          lines := st.lines ++
            [⟨band, band_low Fs num_bands band, band_high Fs num_bands band,
              band_power.getD band 0, Tag.meh⟩] } := by
  unfold detect_step is_wow
  by_cases h1 : in_window (band_low Fs num_bands band) (band_high Fs num_bands band) = true
  · by_cases h2 : band_power.getD band 0 > THRESHOLD * avg
    · simp [h1, h2]
    · simp [h1, h2]
  · simp [h1]

/-- The state of the detection loop after the first `n` bands. -/
theorem detect_loop_inv (Fs : ℚ) (num_bands : ℕ) (band_power : List ℚ) (avg : ℚ)
    (hFs : 0 < Fs) (n : ℕ) :
    (∀ b, tagged_wow
        ((List.range n).foldl (detect_step Fs num_bands band_power avg)
          { lb := -1, ub := -1, wow := false, lines := [] }).lines b = true ↔
      (b < n ∧ is_wow Fs num_bands band_power avg b = true)) ∧
    (((List.range n).foldl (detect_step Fs num_bands band_power avg)
          { lb := -1, ub := -1, wow := false, lines := [] }).wow = false ∧
        ((List.range n).foldl (detect_step Fs num_bands band_power avg)
          { lb := -1, ub := -1, wow := false, lines := [] }).lb = -1 ∧
        (∀ b, b < n → is_wow Fs num_bands band_power avg b = false) ∨
      ((List.range n).foldl (detect_step Fs num_bands band_power avg)
          { lb := -1, ub := -1, wow := false, lines := [] }).wow = true ∧
        ∃ first last, first ≤ last ∧ last < n ∧
          is_wow Fs num_bands band_power avg first = true ∧
          is_wow Fs num_bands band_power avg last = true ∧
          (∀ b, b < first → is_wow Fs num_bands band_power avg b = false) ∧
          (∀ b, last < b → b < n → is_wow Fs num_bands band_power avg b = false) ∧
          ((List.range n).foldl (detect_step Fs num_bands band_power avg)
            { lb := -1, ub := -1, wow := false, lines := [] }).lb =
              band_low Fs num_bands first ∧
          ((List.range n).foldl (detect_step Fs num_bands band_power avg)
            { lb := -1, ub := -1, wow := false, lines := [] }).ub =
              band_high Fs num_bands last) := by
  induction n with
  | zero => simp [tagged_wow]
  | succ n ih =>
    rw [List.range_succ, List.foldl_append, List.foldl_cons, List.foldl_nil, detect_step_eq]
    generalize (List.range n).foldl (detect_step Fs num_bands band_power avg)
      { lb := -1, ub := -1, wow := false, lines := [] } = st at ih ⊢
    obtain ⟨hlines, hstate⟩ := ih
    by_cases hw : is_wow Fs num_bands band_power avg n = true
    · rw [if_pos hw]
      refine ⟨?_, Or.inr ⟨rfl, ?_⟩⟩
      · intro b
        have := hlines b
        simp only [tagged_wow, List.any_append, Bool.or_eq_true] at this ⊢
        rw [this]
        by_cases hbn : b = n
        · subst hbn; simp [hw]
        · have hnb : ¬ n = b := fun e => hbn e.symm
          simp only [List.any_cons, hnb, decide_False, Bool.false_and, List.any_nil,
            Bool.or_self, Bool.false_eq_true, or_false]
          constructor
          · rintro ⟨h1, h2⟩; exact ⟨by omega, h2⟩
          · rintro ⟨h1, h2⟩; exact ⟨by omega, h2⟩
      · rcases hstate with ⟨_, hlb, hnone⟩ | ⟨_, first, last, hfl, hln, hf, _, hbefore, _, hlb, _⟩
        · refine ⟨n, n, le_refl _, by omega, hw, hw, hnone, ?_, ?_, rfl⟩
          · intro b h1 h2; omega
          · simp [hlb]
        · refine ⟨first, n, by omega, by omega, hf, hw, hbefore, ?_, ?_, rfl⟩
          · intro b h1 h2; omega
          · have hpos := band_low_pos Fs num_bands first hFs
            have hnot : ¬ st.lb < 0 := by rw [hlb]; exact not_lt.mpr (le_of_lt hpos)
            show (if st.lb < 0 then band_low Fs num_bands n else st.lb) = _
            rw [if_neg hnot, hlb]
    · have hw' : is_wow Fs num_bands band_power avg n = false := by simpa using hw
      rw [if_neg hw]
      refine ⟨?_, ?_⟩
      · intro b
        have := hlines b
        simp only [tagged_wow, List.any_append, Bool.or_eq_true] at this ⊢
        rw [this]
        have hmeh : decide (Tag.meh = Tag.WOW) = false := by decide
        simp only [List.any_cons, hmeh, Bool.and_false, List.any_nil, Bool.or_self,
          Bool.false_eq_true, or_false]
        constructor
        · rintro ⟨h1, h2⟩; exact ⟨by omega, h2⟩
        · rintro ⟨h1, h2⟩
          refine ⟨?_, h2⟩
          rcases Nat.lt_succ_iff_lt_or_eq.mp h1 with h | h
          · exact h
          · subst h; rw [hw'] at h2; exact absurd h2 (by simp)
      · rcases hstate with ⟨hwow, hlb, hnone⟩ |
          ⟨hwow, first, last, hfl, hln, hf, hl, hbefore, hafter, hlb, hub⟩
        · refine Or.inl ⟨hwow, hlb, ?_⟩
          intro b hb
          rcases Nat.lt_succ_iff_lt_or_eq.mp hb with h | h
          · exact hnone b h
          · subst h; exact hw'
        · refine Or.inr ⟨hwow, first, last, hfl, by omega, hf, hl, hbefore, ?_, hlb, hub⟩
          intro b h1 h2
          rcases Nat.lt_succ_iff_lt_or_eq.mp h2 with h | h
          · exact hafter b h1 h
          · subst h; exact hw'

/-- C5: for `Fs > 0`, with "interesting" meaning "tagged WOW in the printed band lines":
if some band is interesting there are a first and a last interesting band and the verdict
is `POSSIBLE ALIENS` with lower bound the first one's `band_low`, upper bound the last
one's `band_high` and centre their midpoint, whatever lies between; if no band is
interesting the verdict is `no aliens`.  With bands 2 and 5 interesting and 3 and 4 not,
the range runs from band 2's low edge to band 5's high edge. -/
theorem verdict_spans_first_to_last (Fs : ℚ) (num_bands : ℕ) (band_power : List ℚ)
    (hFs : 0 < Fs) :
    ((∃ b, tagged_wow (report Fs num_bands band_power).lines b = true) →
      ∃ first last, first ≤ last ∧ last < num_bands ∧
        tagged_wow (report Fs num_bands band_power).lines first = true ∧
        tagged_wow (report Fs num_bands band_power).lines last = true ∧
        (∀ b, b < first → tagged_wow (report Fs num_bands band_power).lines b = false) ∧
        (∀ b, last < b → tagged_wow (report Fs num_bands band_power).lines b = false) ∧
        (report Fs num_bands band_power).verdict =
          Verdict.possible_aliens (band_low Fs num_bands first) (band_high Fs num_bands last)
            ((band_low Fs num_bands first + band_high Fs num_bands last) / 2)) ∧
    ((∀ b, tagged_wow (report Fs num_bands band_power).lines b = false) →
      (report Fs num_bands band_power).verdict = Verdict.no_aliens) ∧
    ((List.range 8).map (tagged_wow (report 320000 8 [1, 1, 20, 1, 1, 20, 1, 1]).lines) =
        [false, false, true, false, false, true, false, false] ∧
      (report 320000 8 [1, 1, 20, 1, 1, 20, 1, 1]).verdict =
        Verdict.possible_aliens (band_low 320000 8 2) (band_high 320000 8 5) 80000) := by
  obtain ⟨hlines, hstate⟩ :=
    detect_loop_inv Fs num_bands band_power (avg_of band_power) hFs num_bands
  have htag : ∀ b, tagged_wow (report Fs num_bands band_power).lines b = true ↔
      (b < num_bands ∧ is_wow Fs num_bands band_power (avg_of band_power) b = true) := hlines
  have htagf : ∀ b, is_wow Fs num_bands band_power (avg_of band_power) b = false →
      tagged_wow (report Fs num_bands band_power).lines b = false := by
    intro b hb
    cases h : tagged_wow (report Fs num_bands band_power).lines b with
    | false => rfl
    | true => rw [((htag b).mp h).2] at hb; exact absurd hb (by simp)
  have hverdict : (report Fs num_bands band_power).verdict =
      verdict_of ((List.range num_bands).foldl
        (detect_step Fs num_bands band_power (avg_of band_power))
        { lb := -1, ub := -1, wow := false, lines := [] }) := rfl
  refine ⟨?_, ?_, ?_, ?_⟩
  · rintro ⟨b, hb⟩
    rcases hstate with ⟨_, _, hnone⟩ |
      ⟨hwow, first, last, hfl, hln, hf, hl, hbefore, hafter, hlb, hub⟩
    · have := (htag b).mp hb
      rw [hnone b this.1] at this
      exact absurd this.2 (by simp)
    · refine ⟨first, last, hfl, hln, (htag first).mpr ⟨by omega, hf⟩,
        (htag last).mpr ⟨hln, hl⟩, fun b hb => htagf b (hbefore b hb), ?_, ?_⟩
      · intro b hb
        cases h : tagged_wow (report Fs num_bands band_power).lines b with
        | false => rfl
        | true =>
          have := (htag b).mp h
          rw [hafter b hb this.1] at this
          exact absurd this.2 (by simp)
      · rw [hverdict, verdict_of, if_pos hwow, hlb, hub]
  · intro hnone
    rcases hstate with ⟨hwow, _, _⟩ | ⟨_, first, last, hfl, hln, hf, _⟩
    · rw [hverdict, verdict_of, hwow]
      rfl
    · have := hnone first
      rw [(htag first).mpr ⟨by omega, hf⟩] at this
      exact absurd this (by simp)
  · decide!
  · norm_num [report, detect_loop, detect_step, verdict_of, avg_of, in_window, band_low,
      band_high, bandwidth, THRESHOLD, ALIENS_LOW, ALIENS_HIGH, List.range, List.range.loop]

theorem verdict_spans_first_to_last_witness :
    ∃ first last, first ≤ last ∧ last < 8 ∧
      tagged_wow (report 320000 8 [1, 1, 20, 1, 20, 20, 1, 1]).lines first = true ∧
      tagged_wow (report 320000 8 [1, 1, 20, 1, 20, 20, 1, 1]).lines last = true ∧
      (∀ b, b < first →
        tagged_wow (report 320000 8 [1, 1, 20, 1, 20, 20, 1, 1]).lines b = false) ∧
      (∀ b, last < b →
        tagged_wow (report 320000 8 [1, 1, 20, 1, 20, 20, 1, 1]).lines b = false) ∧
      (report 320000 8 [1, 1, 20, 1, 20, 20, 1, 1]).verdict =
        Verdict.possible_aliens (band_low 320000 8 first) (band_high 320000 8 last)
          ((band_low 320000 8 first + band_high 320000 8 last) / 2) :=
  (verdict_spans_first_to_last 320000 8 [1, 1, 20, 1, 20, 20, 1, 1] (by norm_num)).1
    ⟨2, by decide!⟩

/-- The band ids of the printed band lines are `0 .. n-1`, in order. -/
theorem detect_loop_bands (Fs : ℚ) (num_bands : ℕ) (band_power : List ℚ) (avg : ℚ) (n : ℕ) :
    (((List.range n).foldl (detect_step Fs num_bands band_power avg)
      { lb := -1, ub := -1, wow := false, lines := [] }).lines.map fun l => l.band) =
      List.range n := by
  induction n with
  | zero => rfl
  | succ n ih =>
    rw [List.range_succ, List.foldl_append, List.foldl_cons, List.foldl_nil, detect_step_eq]
    split <;> simp [ih]

/-- A line that is not tagged WOW is tagged meh. -/
theorem tag_meh_of_not_tagged_wow (lines : List BandLine)
    (h : ∀ b, tagged_wow lines b = false) : ∀ l ∈ lines, l.tag = Tag.meh := by
  intro l hl
  cases htag : l.tag with
  | meh => rfl
  | WOW =>
    have hany : tagged_wow lines l.band = true := by
      unfold tagged_wow
      rw [List.any_eq_true]
      exact ⟨l, hl, by simp [htag]⟩
    rw [h l.band] at hany
    exact absurd hany (by simp)

/-- When neither test pair succeeds for any band, nothing is tagged WOW and the verdict
is `no aliens`. -/
theorem no_aliens_of_no_wow (Fs : ℚ) (num_bands : ℕ) (band_power : List ℚ) (hFs : 0 < Fs)
    (h : ∀ b, b < num_bands →
      is_wow Fs num_bands band_power (avg_of band_power) b = false) :
    (∀ b, tagged_wow (report Fs num_bands band_power).lines b = false) ∧
    (report Fs num_bands band_power).verdict = Verdict.no_aliens := by
  obtain ⟨hlines, hstate⟩ :=
    detect_loop_inv Fs num_bands band_power (avg_of band_power) hFs num_bands
  have htag : ∀ b, tagged_wow (report Fs num_bands band_power).lines b = true ↔
      (b < num_bands ∧ is_wow Fs num_bands band_power (avg_of band_power) b = true) := hlines
  have hnone : ∀ b, tagged_wow (report Fs num_bands band_power).lines b = false := by
    intro b
    cases hb : tagged_wow (report Fs num_bands band_power).lines b with
    | false => rfl
    | true =>
      have := (htag b).mp hb
      rw [h b this.1] at this
      exact absurd this.2 (by simp)
  refine ⟨hnone, ?_⟩
  rcases hstate with ⟨hwow, _, _⟩ | ⟨_, first, last, hfl, hln, hf, _⟩
  · show verdict_of ((List.range num_bands).foldl
      (detect_step Fs num_bands band_power (avg_of band_power))
      { lb := -1, ub := -1, wow := false, lines := [] }) = _
    rw [verdict_of, hwow]
    rfl
  · rw [h first (by omega)] at hf
    exact absurd hf (by simp)

/-- The test of lines 184-185 in words: one of the two edges lies in the window. -/
theorem in_window_iff (lo hi : ℚ) :
    in_window lo hi = true ↔
      ((ALIENS_LOW ≤ lo ∧ lo ≤ ALIENS_HIGH) ∨ (ALIENS_LOW ≤ hi ∧ hi ≤ ALIENS_HIGH)) := by
  simp [in_window]

/-- C6, as stated, fails: with `Fs = 1200000` and three bands, band 0 is
`[0.0001, 199999.9999]`, which overlaps the window, its power `10` exceeds twice the mean
`4`, the other two bands lie above the window with power below the threshold, and the
verdict is `no aliens`. -/
theorem single_band_overlap_counterexample :
    (∃ x : ℚ, band_low 1200000 3 0 ≤ x ∧ x ≤ band_high 1200000 3 0 ∧
      ALIENS_LOW ≤ x ∧ x ≤ ALIENS_HIGH) ∧
    ([10, 1, 1] : List ℚ).getD 0 0 > THRESHOLD * avg_of [10, 1, 1] ∧
    (∀ c, c < 3 → c ≠ 0 →
      ALIENS_HIGH < band_low 1200000 3 c ∧
      ¬ (([10, 1, 1] : List ℚ).getD c 0 > THRESHOLD * avg_of [10, 1, 1])) ∧
    (report 1200000 3 [10, 1, 1]).verdict = Verdict.no_aliens ∧
    (report 1200000 3 [10, 1, 1]).verdict ≠
      Verdict.possible_aliens (band_low 1200000 3 0) (band_high 1200000 3 0)
        ((band_low 1200000 3 0 + band_high 1200000 3 0) / 2) := by
  have hv : (report 1200000 3 [10, 1, 1]).verdict = Verdict.no_aliens := by
    norm_num [report, detect_loop, detect_step, verdict_of, avg_of, in_window, band_low,
      band_high, bandwidth, THRESHOLD, ALIENS_LOW, ALIENS_HIGH, List.range, List.range.loop]
  refine ⟨⟨100000, ?_⟩, ?_, ?_, hv, ?_⟩
  · norm_num [band_low, band_high, bandwidth, ALIENS_LOW, ALIENS_HIGH]
  · norm_num [avg_of, THRESHOLD]
  · intro c hc hc0
    interval_cases c
    · exact absurd rfl hc0
    · norm_num [avg_of, THRESHOLD, band_low, bandwidth, ALIENS_HIGH]
    · norm_num [avg_of, THRESHOLD, band_low, bandwidth, ALIENS_HIGH]
  · rw [hv]
    exact fun h => Verdict.noConfusion h

/-- C6, amended: for `Fs > 0`, if band `b` overlaps the window `[50000, 150000]` without
containing it strictly inside (not both `band_low < 50000` and `150000 < band_high`), its
power exceeds twice the mean, and no other band's power does, then the verdict is
`POSSIBLE ALIENS` with range `[band_low(b), band_high(b)]` and centre their midpoint. -/
theorem single_flagged_band (Fs : ℚ) (num_bands : ℕ) (band_power : List ℚ) (b : ℕ)
    (hFs : 0 < Fs) (hb : b < num_bands)
    (hoverlap : ∃ x : ℚ, band_low Fs num_bands b ≤ x ∧ x ≤ band_high Fs num_bands b ∧
      ALIENS_LOW ≤ x ∧ x ≤ ALIENS_HIGH)
    (hinside : ¬ (band_low Fs num_bands b < ALIENS_LOW ∧
      ALIENS_HIGH < band_high Fs num_bands b))
    (hpower : band_power.getD b 0 > THRESHOLD * avg_of band_power)
    (hothers : ∀ c, c < num_bands → c ≠ b →
      ¬ (band_power.getD c 0 > THRESHOLD * avg_of band_power)) :
    (report Fs num_bands band_power).verdict =
      Verdict.possible_aliens (band_low Fs num_bands b) (band_high Fs num_bands b)
        ((band_low Fs num_bands b + band_high Fs num_bands b) / 2) := by
  have hin : in_window (band_low Fs num_bands b) (band_high Fs num_bands b) = true := by
    rw [in_window_iff]
    obtain ⟨x, h1, h2, h3, h4⟩ := hoverlap
    by_cases hlo : ALIENS_LOW ≤ band_low Fs num_bands b
    · exact Or.inl ⟨hlo, le_trans h1 h4⟩
    · right
      refine ⟨le_trans h3 h2, ?_⟩
      by_contra hhi
      exact hinside ⟨not_le.mp hlo, not_le.mp hhi⟩
  have hwb : is_wow Fs num_bands band_power (avg_of band_power) b = true := by
    simp only [is_wow, hin, Bool.true_and, decide_eq_true_eq]
    exact hpower
  have hwc : ∀ c, c < num_bands → c ≠ b →
      is_wow Fs num_bands band_power (avg_of band_power) c = false := by
    intro c hc hcb
    simp only [is_wow, Bool.and_eq_false_imp, decide_eq_false_iff_not]
    exact fun _ => hothers c hc hcb
  obtain ⟨_, hstate⟩ :=
    detect_loop_inv Fs num_bands band_power (avg_of band_power) hFs num_bands
  rcases hstate with ⟨_, _, hnone⟩ | ⟨hwow, first, last, hfl, hln, hf, hl, _, _, hlb, hub⟩
  · rw [hnone b hb] at hwb
    exact absurd hwb (by simp)
  · have hfirst : first = b := by
      by_contra hne
      rw [hwc first (by omega) hne] at hf
      exact absurd hf (by simp)
    have hlast : last = b := by
      by_contra hne
      rw [hwc last hln hne] at hl
      exact absurd hl (by simp)
    subst hfirst
    subst hlast
    show verdict_of ((List.range num_bands).foldl
      (detect_step Fs num_bands band_power (avg_of band_power))
      { lb := -1, ub := -1, wow := false, lines := [] }) = _
    rw [verdict_of, if_pos hwow, hlb, hub]

theorem single_flagged_band_witness :
    (report 320000 8 [1, 1, 20, 1, 1, 1, 1, 1]).verdict =
      Verdict.possible_aliens (band_low 320000 8 2) (band_high 320000 8 2)
        ((band_low 320000 8 2 + band_high 320000 8 2) / 2) :=
  single_flagged_band 320000 8 [1, 1, 20, 1, 1, 1, 1, 1] 2 (by norm_num) (by norm_num)
    ⟨50000, by norm_num [band_low, band_high, bandwidth, ALIENS_LOW, ALIENS_HIGH]⟩
    (by norm_num [band_low, band_high, bandwidth, ALIENS_LOW, ALIENS_HIGH])
    (by norm_num [avg_of, THRESHOLD])
    (by
      intro c hc hcb
      interval_cases c <;> first
        | exact absurd rfl hcb
        | norm_num [avg_of, THRESHOLD])

/-- C7: for `Fs > 0`, if for every band the closed interval between its two edges has
no point in `[50000, 150000]`, then the loop prints one line per band, every line is
tagged meh, and the verdict is `no aliens`, whatever the powers are. -/
theorem out_of_window_immunity (Fs : ℚ) (num_bands : ℕ) (band_power : List ℚ) (hFs : 0 < Fs)
    (hout : ∀ b, b < num_bands → ∀ x : ℚ,
      min (band_low Fs num_bands b) (band_high Fs num_bands b) ≤ x →
      x ≤ max (band_low Fs num_bands b) (band_high Fs num_bands b) →
      ¬ (ALIENS_LOW ≤ x ∧ x ≤ ALIENS_HIGH)) :
    ((report Fs num_bands band_power).lines.map fun l => l.band) = List.range num_bands ∧
    (∀ l ∈ (report Fs num_bands band_power).lines, l.tag = Tag.meh) ∧
    (report Fs num_bands band_power).verdict = Verdict.no_aliens := by
  have hno : ∀ b, b < num_bands →
      is_wow Fs num_bands band_power (avg_of band_power) b = false := by
    intro b hb
    have hnot : ¬ in_window (band_low Fs num_bands b) (band_high Fs num_bands b) = true := by
      rw [in_window_iff]
      rintro (h | h)
      · exact hout b hb _ (min_le_left _ _) (le_max_left _ _) h
      · exact hout b hb _ (min_le_right _ _) (le_max_right _ _) h
    simp [is_wow, hnot]
  obtain ⟨hnone, hverdict⟩ := no_aliens_of_no_wow Fs num_bands band_power hFs hno
  exact ⟨detect_loop_bands Fs num_bands band_power (avg_of band_power) num_bands,
    tag_meh_of_not_tagged_wow _ hnone, hverdict⟩

theorem out_of_window_immunity_witness :
    ((report 80000 4 [1, 100, 1, 1]).lines.map fun l => l.band) = List.range 4 ∧
    (∀ l ∈ (report 80000 4 [1, 100, 1, 1]).lines, l.tag = Tag.meh) ∧
    (report 80000 4 [1, 100, 1, 1]).verdict = Verdict.no_aliens :=
  out_of_window_immunity 80000 4 [1, 100, 1, 1] (by norm_num)
    (by
      intro b hb x _ h2 h3
      have hmax : max (band_low 80000 4 b) (band_high 80000 4 b) < ALIENS_LOW := by
        interval_cases b <;> norm_num [band_low, band_high, bandwidth, ALIENS_LOW]
      exact absurd (lt_of_le_of_lt (le_trans h3.1 h2) hmax) (lt_irrefl _))

/-- C8: with one band of power `p ≥ 0` and `Fs > 0`, `max_of` and `avg_of` both return
`p`, the test `p > 2.0 * avg` fails, and the verdict is `no aliens`. -/
theorem single_band_no_aliens (Fs p : ℚ) (hFs : 0 < Fs) (hp : 0 ≤ p) :
    max_of [p] = some p ∧ avg_of [p] = p ∧
    (report Fs 1 [p]).max_band_power = some p ∧ (report Fs 1 [p]).avg_band_power = p ∧
    ¬ (p > THRESHOLD * avg_of [p]) ∧
    (report Fs 1 [p]).verdict = Verdict.no_aliens := by
  have havg : avg_of [p] = p := by simp [avg_of]
  have hnot : ¬ (p > THRESHOLD * avg_of [p]) := by
    rw [havg, THRESHOLD]
    intro h
    linarith
  refine ⟨rfl, havg, rfl, havg, hnot, ?_⟩
  refine (no_aliens_of_no_wow Fs 1 [p] hFs ?_).2
  intro b hb
  have hb0 : b = 0 := by omega
  subst hb0
  simp only [is_wow, Bool.and_eq_false_imp, decide_eq_false_iff_not]
  exact fun _ => hnot

theorem single_band_no_aliens_witness :
    max_of [7] = some 7 ∧ avg_of [7] = 7 ∧
    (report 200000 1 [7]).max_band_power = some 7 ∧ (report 200000 1 [7]).avg_band_power = 7 ∧
    ¬ ((7 : ℚ) > THRESHOLD * avg_of [7]) ∧
    (report 200000 1 [7]).verdict = Verdict.no_aliens :=
  single_band_no_aliens 200000 7 (by norm_num) (by norm_num)

/-- C9, as stated, fails: with `Fs = 400000` and one band, the band is
`[0.0001, 199999.9999]`; it has the point `100000` in common with `[50000, 150000]`, and
the test of lines 184-185 is false.  In the loop: with `Fs = 1500000` and powers
`[9, 0, 0]`, band 0 contains the window, its power exceeds twice the mean, and it is not
tagged WOW. -/
theorem in_window_not_intersection :
    (∃ x : ℚ, band_low 400000 1 0 ≤ x ∧ x ≤ band_high 400000 1 0 ∧
      ALIENS_LOW ≤ x ∧ x ≤ ALIENS_HIGH) ∧
    in_window (band_low 400000 1 0) (band_high 400000 1 0) = false ∧
    (∃ x : ℚ, band_low 1500000 3 0 ≤ x ∧ x ≤ band_high 1500000 3 0 ∧
      ALIENS_LOW ≤ x ∧ x ≤ ALIENS_HIGH) ∧
    ([9, 0, 0] : List ℚ).getD 0 0 > THRESHOLD * avg_of [9, 0, 0] ∧
    tagged_wow (report 1500000 3 [9, 0, 0]).lines 0 = false := by
  refine ⟨⟨100000, ?_⟩, ?_, ⟨100000, ?_⟩, ?_, ?_⟩
  · norm_num [band_low, band_high, bandwidth, ALIENS_LOW, ALIENS_HIGH]
  · norm_num [in_window, band_low, band_high, bandwidth, ALIENS_LOW, ALIENS_HIGH]
  · norm_num [band_low, band_high, bandwidth, ALIENS_LOW, ALIENS_HIGH]
  · norm_num [avg_of, THRESHOLD]
  · decide!

/-- C9, amended: for `Fs > 0` the detection loop classifies band `b` as in-window exactly
when `band_low(b)` or `band_high(b)` lies in `[50000, 150000]`; that is, exactly when the
closed interval between the two edges meets `[50000, 150000]` and does not have one edge
below `50000` and the other above `150000`.  Band `b` is tagged WOW exactly when it is
one of the bands, is in-window in this sense, and its power exceeds twice the mean. -/
theorem in_window_classification (Fs : ℚ) (num_bands : ℕ) (band_power : List ℚ) (b : ℕ)
    (hFs : 0 < Fs) :
    (in_window (band_low Fs num_bands b) (band_high Fs num_bands b) = true ↔
      ((ALIENS_LOW ≤ band_low Fs num_bands b ∧ band_low Fs num_bands b ≤ ALIENS_HIGH) ∨
        (ALIENS_LOW ≤ band_high Fs num_bands b ∧ band_high Fs num_bands b ≤ ALIENS_HIGH))) ∧
    (in_window (band_low Fs num_bands b) (band_high Fs num_bands b) = true ↔
      ((∃ x : ℚ, min (band_low Fs num_bands b) (band_high Fs num_bands b) ≤ x ∧
          x ≤ max (band_low Fs num_bands b) (band_high Fs num_bands b) ∧
          ALIENS_LOW ≤ x ∧ x ≤ ALIENS_HIGH) ∧
        ¬ (min (band_low Fs num_bands b) (band_high Fs num_bands b) < ALIENS_LOW ∧
          ALIENS_HIGH < max (band_low Fs num_bands b) (band_high Fs num_bands b)))) ∧
    (tagged_wow (report Fs num_bands band_power).lines b = true ↔
      (b < num_bands ∧
        in_window (band_low Fs num_bands b) (band_high Fs num_bands b) = true ∧
        band_power.getD b 0 > THRESHOLD * avg_of band_power)) := by
  refine ⟨in_window_iff _ _, ?_, ?_⟩
  · rw [in_window_iff]
    generalize band_low Fs num_bands b = lo
    generalize band_high Fs num_bands b = hi
    have hAB : ALIENS_LOW ≤ ALIENS_HIGH := by norm_num [ALIENS_LOW, ALIENS_HIGH]
    constructor
    · rintro (⟨h1, h2⟩ | ⟨h1, h2⟩)
      · refine ⟨⟨lo, min_le_left _ _, le_max_left _ _, h1, h2⟩, ?_⟩
        rintro ⟨h3, h4⟩
        rcases le_total lo hi with h | h
        · rw [min_eq_left h] at h3
          exact absurd h1 (not_le.mpr h3)
        · rw [max_eq_left h] at h4
          exact absurd h2 (not_le.mpr h4)
      · refine ⟨⟨hi, min_le_right _ _, le_max_right _ _, h1, h2⟩, ?_⟩
        rintro ⟨h3, h4⟩
        rcases le_total lo hi with h | h
        · rw [max_eq_right h] at h4
          exact absurd h2 (not_le.mpr h4)
        · rw [min_eq_right h] at h3
          exact absurd h1 (not_le.mpr h3)
    · rintro ⟨⟨x, h1, h2, h3, h4⟩, hnot⟩
      rcases le_total lo hi with h | h
      · rw [min_eq_left h] at h1 hnot
        rw [max_eq_right h] at h2 hnot
        by_cases hlo : ALIENS_LOW ≤ lo
        · exact Or.inl ⟨hlo, le_trans h1 h4⟩
        · right
          refine ⟨le_trans h3 h2, ?_⟩
          by_contra hhi
          exact hnot ⟨not_le.mp hlo, not_le.mp hhi⟩
      · rw [min_eq_right h] at h1 hnot
        rw [max_eq_left h] at h2 hnot
        by_cases hlo : ALIENS_LOW ≤ hi
        · exact Or.inr ⟨hlo, le_trans h1 h4⟩
        · left
          refine ⟨le_trans h3 h2, ?_⟩
          by_contra hhi
          exact hnot ⟨not_le.mp hlo, not_le.mp hhi⟩
  · have h := (detect_loop_inv Fs num_bands band_power (avg_of band_power) hFs num_bands).1 b
    have htag : tagged_wow (report Fs num_bands band_power).lines b = true ↔
        (b < num_bands ∧ is_wow Fs num_bands band_power (avg_of band_power) b = true) := h
    rw [htag]
    simp [is_wow]

theorem in_window_classification_witness :
    (tagged_wow (report 320000 8 [1, 1, 20, 1, 1, 20, 1, 1]).lines 5 = true ↔
      (5 < 8 ∧
        in_window (band_low 320000 8 5) (band_high 320000 8 5) = true ∧
        ([1, 1, 20, 1, 1, 20, 1, 1] : List ℚ).getD 5 0 >
          THRESHOLD * avg_of [1, 1, 20, 1, 1, 20, 1, 1])) :=
  (in_window_classification 320000 8 [1, 1, 20, 1, 1, 20, 1, 1] 5 (by norm_num)).2.2

/-! ## The empty signal -/

/-- C10, as stated, fails: `remove_dc` on the empty sequence returns (the empty sequence),
and `main`, given eight arguments, a valid configuration and a loader that returns a
signal with no samples, goes through the scan and returns `0`. -/
theorem empty_signal_not_rejected :
    toy_externals.load_text_format_signal "empty.txt" = some [] ∧
    (remove_dc []).data = [] ∧
    (main toy_externals
        { argc := 8, type_arg := "text", sig_file := "empty.txt", Fs := 8, filter_order := 2,
          num_bands := 5, num_threads := 2, num_procs := 1 } [0, 1]).exit =
      Exit.returned 0 ∧
    (main toy_externals
        { argc := 8, type_arg := "text", sig_file := "empty.txt", Fs := 8, filter_order := 2,
          num_bands := 5, num_threads := 2, num_procs := 1 } [0, 1]).out.getLast? =
      some (Out.verdict Verdict.no_aliens) := by
  refine ⟨rfl, rfl, ?_, ?_⟩
  · decide!
  · decide!

/-- C10, amended: an empty sample sequence is not rejected.  `remove_dc` returns on it,
leaving it empty; and `main`, given eight arguments, a configuration that passes the five
assertions, and a loader that returns a signal with no samples, prints the
`Removing DC component` line after the parameter summary and `Load or map file`, prints
no error message, and ends neither by an error return nor by an assertion, whatever the
workers then do. -/
theorem empty_signal_goes_on (ext : Externals) (a : Args) (order : List ℕ)
    (hargc : a.argc = 8) (hFs : a.Fs > 0)
    (hfo : a.filter_order > 0 ∧ a.filter_order % 2 = 0) (hnb : a.num_bands > 0)
    (hnt : a.num_threads > 0) (hnp : a.num_procs > 0)
    (hload : load_signal ext (sig_type_of a.type_arg) a.sig_file = some (some [])) :
    (remove_dc []).data = [] ∧
    (main ext a order).out.take 3 =
      [Out.header (sig_type_of a.type_arg) a.sig_file a.Fs a.filter_order a.num_bands
          a.num_threads a.num_procs,
        Out.load_or_map, Out.removing_dc (remove_dc []).dc] ∧
    Out.usage ∉ (main ext a order).out ∧
    Out.unknown_signal_type ∉ (main ext a order).out ∧
    Out.unable_to_load ∉ (main ext a order).out ∧
    (main ext a order).exit ≠ Exit.returned (-1) ∧
    (main ext a order).exit ≠ Exit.aborted := by
  have hmain : main ext a order =
      match run_workers ext a.Fs a.filter_order.toNat a.num_bands.toNat a.num_threads.toNat
          a.num_procs.toNat (remove_dc []).data order 4294967297 with
      | none =>
        { exit := Exit.no_exit
          out :=
            [Out.header (sig_type_of a.type_arg) a.sig_file a.Fs a.filter_order a.num_bands
                a.num_threads a.num_procs,
              Out.load_or_map] ++ [Out.removing_dc (remove_dc []).dc] }
      | some s =>
        { exit := Exit.returned 0
          out :=
            [Out.header (sig_type_of a.type_arg) a.sig_file a.Fs a.filter_order a.num_bands
                a.num_threads a.num_procs,
              Out.load_or_map] ++ [Out.removing_dc (remove_dc []).dc] ++
              (report a.Fs a.num_bands.toNat s.band_power).lines.map Out.band ++
              [Out.verdict (report a.Fs a.num_bands.toNat s.band_power).verdict] } := by
    unfold main
    rw [if_neg (by omega), if_neg (not_not.mpr hFs), if_neg (not_not.mpr hfo),
      if_neg (not_not.mpr hnb), if_neg (not_not.mpr hnt), if_neg (not_not.mpr hnp)]
    simp only [hload]
  rw [hmain]
  cases run_workers ext a.Fs a.filter_order.toNat a.num_bands.toNat a.num_threads.toNat
      a.num_procs.toNat (remove_dc []).data order 4294967297 with
  | none =>
    refine ⟨rfl, rfl, ?_, ?_, ?_, ?_, ?_⟩
    · simp
    · simp
    · simp
    · exact fun h => Exit.noConfusion h
    · exact fun h => Exit.noConfusion h
  | some s =>
    refine ⟨rfl, rfl, ?_, ?_, ?_, ?_, ?_⟩
    · simp
    · simp
    · simp
    · intro h
      injection h with h'
      exact absurd h' (by decide)
    · exact fun h => Exit.noConfusion h

theorem empty_signal_goes_on_witness :
    (remove_dc []).data = [] ∧
    (main toy_externals
        { argc := 8, type_arg := "t", sig_file := "none.txt", Fs := 44100, filter_order := 4,
          num_bands := 3, num_threads := 2, num_procs := 2 } [1, 0]).out.take 3 =
      [Out.header 'T' "none.txt" 44100 4 3 2 2, Out.load_or_map,
        Out.removing_dc (remove_dc []).dc] ∧
    Out.usage ∉
      (main toy_externals
        { argc := 8, type_arg := "t", sig_file := "none.txt", Fs := 44100, filter_order := 4,
          num_bands := 3, num_threads := 2, num_procs := 2 } [1, 0]).out ∧
    Out.unknown_signal_type ∉
      (main toy_externals
        { argc := 8, type_arg := "t", sig_file := "none.txt", Fs := 44100, filter_order := 4,
          num_bands := 3, num_threads := 2, num_procs := 2 } [1, 0]).out ∧
    Out.unable_to_load ∉
      (main toy_externals
        { argc := 8, type_arg := "t", sig_file := "none.txt", Fs := 44100, filter_order := 4,
          num_bands := 3, num_threads := 2, num_procs := 2 } [1, 0]).out ∧
    (main toy_externals
        { argc := 8, type_arg := "t", sig_file := "none.txt", Fs := 44100, filter_order := 4,
          num_bands := 3, num_threads := 2, num_procs := 2 } [1, 0]).exit ≠
      Exit.returned (-1) ∧
    (main toy_externals
        { argc := 8, type_arg := "t", sig_file := "none.txt", Fs := 44100, filter_order := 4,
          num_bands := 3, num_threads := 2, num_procs := 2 } [1, 0]).exit ≠ Exit.aborted :=
  empty_signal_goes_on toy_externals
    { argc := 8, type_arg := "t", sig_file := "none.txt", Fs := 44100, filter_order := 4,
      num_bands := 3, num_threads := 2, num_procs := 2 } [1, 0] rfl
    (by show (44100 : ℚ) > 0; norm_num) (by decide) (by decide) (by decide) (by decide)
    (by decide)

/-! ## The bar -/

/-- The loop of lines 180-182 started at counter value `i`: with more fuel than
`⌈x⌉₊ - i` it ends after printing `⌈x⌉₊ - i` stars. -/
theorem bar_loop_spec (x : ℚ) :
    ∀ (fuel i : ℕ), ⌈x⌉₊ - i < fuel → bar_loop x fuel i = some (⌈x⌉₊ - i) := by
  intro fuel
  induction fuel with
  | zero => intro i h; omega
  | succ fuel ih =>
    intro i h
    by_cases hi : (i : ℚ) < x
    · have hlt : i < ⌈x⌉₊ := Nat.lt_ceil.mpr hi
      simp only [bar_loop, if_pos hi, ih (i + 1) (by omega), Option.map_some']
      congr 1
      omega
    · have hge : ¬ i < ⌈x⌉₊ := fun h' => hi (Nat.lt_ceil.mp h')
      simp only [bar_loop, if_neg hi]
      congr 1
      omega

/-- C14, as stated, fails: in the table `[1, 3]`, whose maximum is `3`, band 0 gets
`14` stars, and `floor(40 * 1 / 3)` is `13`. -/
theorem bar_not_floor :
    max_of [1, 3] = some 3 ∧
    (0 : ℚ) ≤ ([1, 3] : List ℚ).getD 0 0 ∧
    band_bar [1, 3] 3 0 15 = some 14 ∧
    band_bar [1, 3] 3 0 100 = some 14 ∧
    ⌊(40 : ℚ) * ([1, 3] : List ℚ).getD 0 0 / 3⌋₊ = 13 := by
  have hceil : ⌈(MAXWIDTH : ℚ) * (([1, 3] : List ℚ).getD 0 0 / 3)⌉₊ = 14 := by
    rw [Nat.ceil_eq_iff (by norm_num)]
    norm_num [MAXWIDTH]
  refine ⟨by decide, by norm_num, ?_, ?_, ?_⟩
  · have h := bar_loop_spec ((MAXWIDTH : ℚ) * (([1, 3] : List ℚ).getD 0 0 / 3)) 15 0
      (by rw [hceil]; norm_num)
    rw [hceil] at h
    exact h
  · have h := bar_loop_spec ((MAXWIDTH : ℚ) * (([1, 3] : List ℚ).getD 0 0 / 3)) 100 0
      (by rw [hceil]; norm_num)
    rw [hceil] at h
    exact h
  · rw [Nat.floor_eq_iff (by norm_num)]
    norm_num

/-- C14, amended: for a band of power `p ≥ 0` and `max_power > 0`, the loop of lines
180-182 ends and prints `ceil(40 * p / max_power)` stars: that is `floor(40 * p /
max_power)` when `40 * p / max_power` is a whole number, and one more otherwise. -/
theorem bar_is_ceil (band_power : List ℚ) (max_band_power : ℚ) (band fuel : ℕ)
    (hp : 0 ≤ band_power.getD band 0) (hmax : 0 < max_band_power)
    (hfuel : ⌈(40 : ℚ) * band_power.getD band 0 / max_band_power⌉₊ < fuel) :
    band_bar band_power max_band_power band fuel =
      some ⌈(40 : ℚ) * band_power.getD band 0 / max_band_power⌉₊ ∧
    ((∃ n : ℕ, (40 : ℚ) * band_power.getD band 0 / max_band_power = n) →
      ⌈(40 : ℚ) * band_power.getD band 0 / max_band_power⌉₊ =
        ⌊(40 : ℚ) * band_power.getD band 0 / max_band_power⌋₊) ∧
    ((¬ ∃ n : ℕ, (40 : ℚ) * band_power.getD band 0 / max_band_power = n) →
      ⌈(40 : ℚ) * band_power.getD band 0 / max_band_power⌉₊ =
        ⌊(40 : ℚ) * band_power.getD band 0 / max_band_power⌋₊ + 1) := by
  have hx : (MAXWIDTH : ℚ) * (band_power.getD band 0 / max_band_power) =
      (40 : ℚ) * band_power.getD band 0 / max_band_power := by
    simp only [MAXWIDTH]
    push_cast
    ring
  have hnonneg : 0 ≤ (40 : ℚ) * band_power.getD band 0 / max_band_power :=
    div_nonneg (mul_nonneg (by norm_num) hp) (le_of_lt hmax)
  generalize (40 : ℚ) * band_power.getD band 0 / max_band_power = x at hx hfuel hnonneg ⊢
  refine ⟨?_, ?_, ?_⟩
  · have h := bar_loop_spec x fuel 0 (by omega)
    rw [band_bar, hx, h]
    rfl
  · rintro ⟨n, rfl⟩
    rw [Nat.ceil_natCast, Nat.floor_natCast]
  · intro hnot
    apply le_antisymm (Nat.ceil_le_floor_add_one x)
    rw [Nat.add_one_le_iff, Nat.lt_ceil]
    rcases lt_or_eq_of_le (Nat.floor_le hnonneg) with h | h
    · exact h
    · exact absurd ⟨⌊x⌋₊, h.symm⟩ hnot

theorem bar_is_ceil_witness :
    band_bar [2, 5, 4] 5 0 17 = some ⌈(40 : ℚ) * ([2, 5, 4] : List ℚ).getD 0 0 / 5⌉₊ ∧
    ⌈(40 : ℚ) * ([2, 5, 4] : List ℚ).getD 0 0 / 5⌉₊ =
      ⌊(40 : ℚ) * ([2, 5, 4] : List ℚ).getD 0 0 / 5⌋₊ :=
  ⟨(bar_is_ceil [2, 5, 4] 5 0 17 (by norm_num) (by norm_num)
      (lt_of_le_of_lt (Nat.ceil_le.mpr (by norm_num : _ ≤ ((16 : ℕ) : ℚ)))
        (by norm_num))).1,
    (bar_is_ceil [2, 5, 4] 5 0 17 (by norm_num) (by norm_num)
      (lt_of_le_of_lt (Nat.ceil_le.mpr (by norm_num : _ ≤ ((16 : ℕ) : ℚ)))
        (by norm_num))).2.1 ⟨16, by norm_num⟩⟩

/-- What `max_of` returns is an entry of the table and bounds every entry. -/
theorem max_of_spec (table : List ℚ) (m : ℚ) (h : max_of table = some m) :
    m ∈ table ∧ ∀ x ∈ table, x ≤ m := by
  cases table with
  | nil => exact absurd h (by simp [max_of])
  | cons d0 rest =>
    obtain ⟨h1, h2, h3⟩ := foldl_max_spec rest d0
    have hm : rest.foldl (fun m x => if x > m then x else m) d0 = m := by
      simpa [max_of] using h
    rw [hm] at h1 h2 h3
    refine ⟨?_, ?_⟩
    · rcases h1 with h1 | h1
      · rw [h1]; exact List.mem_cons_self _ _
      · exact List.mem_cons_of_mem _ h1
    · intro x hx
      rcases List.mem_cons.mp hx with hx | hx
      · rw [hx]; exact h2
      · exact h3 x hx

/-- C17: for a non-empty table of non-negative powers: when its maximum (as `max_of`
returns it) is positive, the bar loop of every band ends with at most `MAXWIDTH = 40`
stars, and with exactly 40 for a band whose power is the maximum; and the divisor
`max_band_power` is zero exactly when every entry of the table is zero. -/
theorem bar_at_most_maxwidth (table : List ℚ) (hne : table ≠ [])
    (hnonneg : ∀ x ∈ table, 0 ≤ x) :
    (∀ m, max_of table = some m → 0 < m →
      ∀ band fuel, band < table.length → MAXWIDTH < fuel →
        ∃ stars, band_bar table m band fuel = some stars ∧ stars ≤ MAXWIDTH ∧
          (table.getD band 0 = m → stars = MAXWIDTH)) ∧
    (max_of table = some 0 ↔ ∀ x ∈ table, x = 0) := by
  refine ⟨?_, ?_⟩
  · intro m hm hpos band fuel hband hfuel
    obtain ⟨_, hle⟩ := max_of_spec table m hm
    have hmem : table.getD band 0 ∈ table := by
      rw [List.getD_eq_getElem table 0 hband]
      exact List.getElem_mem hband
    have hx : (MAXWIDTH : ℚ) * (table.getD band 0 / m) ≤ ((MAXWIDTH : ℕ) : ℚ) := by
      have h1 : table.getD band 0 / m ≤ 1 := (div_le_one hpos).mpr (hle _ hmem)
      have h40 : (0 : ℚ) ≤ (MAXWIDTH : ℚ) := Nat.cast_nonneg _
      nlinarith
    have hceil : ⌈(MAXWIDTH : ℚ) * (table.getD band 0 / m)⌉₊ ≤ MAXWIDTH := Nat.ceil_le.mpr hx
    refine ⟨⌈(MAXWIDTH : ℚ) * (table.getD band 0 / m)⌉₊, ?_, hceil, ?_⟩
    · have h := bar_loop_spec ((MAXWIDTH : ℚ) * (table.getD band 0 / m)) fuel 0 (by omega)
      rw [band_bar, h]
      rfl
    · intro heq
      rw [heq, div_self (ne_of_gt hpos), mul_one, Nat.ceil_natCast]
  · constructor
    · intro hm x hx
      obtain ⟨_, hle⟩ := max_of_spec table 0 hm
      exact le_antisymm (hle x hx) (hnonneg x hx)
    · intro hzero
      cases hmax : max_of table with
      | none =>
        cases table with
        | nil => exact absurd rfl hne
        | cons d0 rest => simp [max_of] at hmax
      | some m =>
        obtain ⟨hmem, _⟩ := max_of_spec table m hmax
        rw [hzero m hmem]

theorem bar_at_most_maxwidth_witness :
    ∃ stars, band_bar [2, 5, 4] 5 1 41 = some stars ∧ stars ≤ MAXWIDTH ∧
      (([2, 5, 4] : List ℚ).getD 1 0 = 5 → stars = MAXWIDTH) :=
  (bar_at_most_maxwidth [2, 5, 4] (by simp)
    (by
      intro x hx
      simp only [List.mem_cons, List.mem_singleton, List.not_mem_nil, or_false] at hx
      rcases hx with rfl | rfl | rfl <;> norm_num)).1 5 (by decide) (by norm_num) 1 41
    (by decide) (by decide)

/-! ## How many bands can exceed the threshold -/

/-- In a list of non-negative numbers, `t` times the number of entries above `t` is at
most the sum, and less than the sum when there is such an entry. -/
theorem count_above_mul_le_sum (t : ℚ) (l : List ℚ) (hl : ∀ x ∈ l, 0 ≤ x) :
    ((l.countP fun p => decide (p > t) : ℕ) : ℚ) * t ≤ l.sum ∧
    (0 < l.countP (fun p => decide (p > t)) →
      ((l.countP fun p => decide (p > t) : ℕ) : ℚ) * t < l.sum) := by
  induction l with
  | nil => simp
  | cons x xs ih =>
    obtain ⟨ih1, ih2⟩ := ih (fun y hy => hl y (List.mem_cons_of_mem _ hy))
    have hx : 0 ≤ x := hl x (List.mem_cons_self _ _)
    rw [List.countP_cons, List.sum_cons]
    by_cases hxt : x > t
    · have hlt : ((xs.countP (fun p => decide (p > t)) + 1 : ℕ) : ℚ) * t < x + xs.sum := by
        push_cast
        linarith
      simp only [hxt, decide_True, if_true]
      exact ⟨le_of_lt hlt, fun _ => hlt⟩
    · simp only [hxt, decide_False, Bool.false_eq_true, if_false, add_zero]
      exact ⟨by linarith, fun hpos => by linarith [ih2 hpos]⟩

/-- When neither test pair succeeds for any of the first `n` bands, `wow` is still `0`
and no line is tagged WOW. -/
theorem wow_false_of_no_wow (Fs : ℚ) (num_bands : ℕ) (band_power : List ℚ) (avg : ℚ) (n : ℕ)
    (h : ∀ b, b < n → is_wow Fs num_bands band_power avg b = false) :
    ((List.range n).foldl (detect_step Fs num_bands band_power avg)
      { lb := -1, ub := -1, wow := false, lines := [] }).wow = false ∧
    ∀ b, tagged_wow ((List.range n).foldl (detect_step Fs num_bands band_power avg)
      { lb := -1, ub := -1, wow := false, lines := [] }).lines b = false := by
  induction n with
  | zero => exact ⟨rfl, fun _ => rfl⟩
  | succ n ih =>
    obtain ⟨ih1, ih2⟩ := ih (fun b hb => h b (by omega))
    have hn : ¬ is_wow Fs num_bands band_power avg n = true := by
      rw [h n (by omega)]
      simp
    rw [List.range_succ, List.foldl_append, List.foldl_cons, List.foldl_nil, detect_step_eq,
      if_neg hn]
    refine ⟨ih1, ?_⟩
    intro b
    have hb := ih2 b
    have hmeh : decide (Tag.meh = Tag.WOW) = false := by decide
    simp only [tagged_wow, List.any_append, List.any_cons, List.any_nil, hmeh,
      Bool.and_false, Bool.or_false] at hb ⊢
    exact hb

/-- C15: in a non-empty table of non-negative powers, the number of entries above
`THRESHOLD` times the mean is less than half the number of entries; so with one or two
bands no band is tagged WOW and the verdict is `no aliens`. -/
theorem few_bands_above_threshold (table : List ℚ) (hne : table ≠ [])
    (hnonneg : ∀ x ∈ table, 0 ≤ x) :
    ((table.countP fun p => decide (p > THRESHOLD * avg_of table) : ℕ) : ℚ) <
      (table.length : ℚ) / 2 ∧
    (table.length = 1 ∨ table.length = 2 →
      ∀ Fs : ℚ,
        (∀ b, tagged_wow (report Fs table.length table).lines b = false) ∧
        (report Fs table.length table).verdict = Verdict.no_aliens) := by
  have hlen : 0 < table.length := List.length_pos.mpr hne
  have hn : (0 : ℚ) < (table.length : ℚ) := by exact_mod_cast hlen
  have hcount : ((table.countP fun p => decide (p > THRESHOLD * avg_of table) : ℕ) : ℚ) <
      (table.length : ℚ) / 2 := by
    obtain ⟨h1, h2⟩ := count_above_mul_le_sum (THRESHOLD * avg_of table) table hnonneg
    by_cases hk : 0 < table.countP fun p => decide (p > THRESHOLD * avg_of table)
    · have hlt := h2 hk
      have hsum : 0 ≤ table.sum := List.sum_nonneg hnonneg
      have hkq : (0 : ℚ) < ((table.countP fun p =>
          decide (p > THRESHOLD * avg_of table) : ℕ) : ℚ) := by exact_mod_cast hk
      generalize ((table.countP fun p => decide (p > THRESHOLD * avg_of table) : ℕ) : ℚ) = k
        at hlt hkq ⊢
      rw [avg_of_eq, THRESHOLD] at hlt
      have hS : 0 < table.sum := by
        have : 0 ≤ k * (2 * (table.sum / (table.length : ℚ))) :=
          mul_nonneg (le_of_lt hkq) (mul_nonneg (by norm_num) (div_nonneg hsum (le_of_lt hn)))
        linarith
      have hmul : 2 * k / (table.length : ℚ) * table.sum < 1 * table.sum := by
        have : 2 * k / (table.length : ℚ) * table.sum =
            k * (2 * (table.sum / (table.length : ℚ))) := by ring
        rw [this, one_mul]
        exact hlt
      have hdiv : 2 * k / (table.length : ℚ) < 1 := lt_of_mul_lt_mul_right hmul (le_of_lt hS)
      have h2k : 2 * k < (table.length : ℚ) := (div_lt_one hn).mp hdiv
      linarith
    · have hzero : table.countP (fun p => decide (p > THRESHOLD * avg_of table)) = 0 := by
        omega
      rw [hzero]
      simp only [Nat.cast_zero]
      linarith
  refine ⟨hcount, ?_⟩
  intro hsmall Fs
  have hzero : table.countP (fun p => decide (p > THRESHOLD * avg_of table)) = 0 := by
    have hle : (table.length : ℚ) ≤ 2 := by
      rcases hsmall with h | h <;> rw [h] <;> norm_num
    have hlt1 : ((table.countP fun p => decide (p > THRESHOLD * avg_of table) : ℕ) : ℚ) <
        ((1 : ℕ) : ℚ) := by
      push_cast
      linarith
    have : table.countP (fun p => decide (p > THRESHOLD * avg_of table)) < 1 := by
      exact_mod_cast hlt1
    omega
  have hnone : ∀ b, b < table.length →
      is_wow Fs table.length table (avg_of table) b = false := by
    intro b hb
    have hmem : table.getD b 0 ∈ table := by
      rw [List.getD_eq_getElem table 0 hb]
      exact List.getElem_mem hb
    have hnot := List.countP_eq_zero.mp hzero _ hmem
    simp only [is_wow, Bool.and_eq_false_imp]
    intro _
    simpa using hnot
  obtain ⟨hwow, htag⟩ := wow_false_of_no_wow Fs table.length table (avg_of table)
    table.length hnone
  refine ⟨htag, ?_⟩
  show verdict_of ((List.range table.length).foldl
    (detect_step Fs table.length table (avg_of table))
    { lb := -1, ub := -1, wow := false, lines := [] }) = _
  rw [verdict_of, hwow]
  rfl

theorem few_bands_above_threshold_witness :
    (((([6, 30] : List ℚ).countP fun p => decide (p > THRESHOLD * avg_of [6, 30]) : ℕ) : ℚ) <
      ((([6, 30] : List ℚ).length : ℕ) : ℚ) / 2) ∧
    (report 400000 ([6, 30] : List ℚ).length [6, 30]).verdict = Verdict.no_aliens :=
  ⟨(few_bands_above_threshold [6, 30] (by simp)
      (by
        intro x hx
        simp only [List.mem_cons, List.mem_singleton, List.not_mem_nil, or_false] at hx
        rcases hx with rfl | rfl <;> norm_num)).1,
    ((few_bands_above_threshold [6, 30] (by simp)
      (by
        intro x hx
        simp only [List.mem_cons, List.mem_singleton, List.not_mem_nil, or_false] at hx
        rcases hx with rfl | rfl <;> norm_num)).2 (Or.inr rfl) 400000).2⟩

/-! ## One worker's bands -/

/-- With `2147483647` bands and `1073741824` workers, the loop of the worker with id
`1073741822` never ends: its counter goes `1073741822, 2147483646, -1073741826, -2` and
round again, always congruent to `1073741822` modulo `2^30` and so below `num_bands`. -/
theorem wrapped_counter_never_ends (ext : Externals) (Fs : ℚ) (filter_order num_procs : ℕ)
    (signal_data : List ℚ) :
    ∀ (fuel : ℕ) (band : ℤ) (s : Shared), band % 1073741824 = 1073741822 →
      -2147483648 ≤ band → band < 2147483648 →
      thread_fn_loop ext
        (worker_args Fs filter_order 2147483647 1073741824 num_procs signal_data 1073741822)
        fuel band s = none := by
  intro fuel
  induction fuel with
  | zero => intro band s _ _ _; rfl
  | succ fuel ih =>
    intro band s hmod hlo hhi
    have hlt : band < ((worker_args Fs filter_order 2147483647 1073741824 num_procs
        signal_data 1073741822).num_bands : ℤ) := by
      simp only [worker_args]
      push_cast
      omega
    rw [thread_fn_loop, if_pos hlt]
    apply ih
    · simp only [worker_args, wrap_int]
      push_cast
      omega
    · simp only [worker_args, wrap_int]
      push_cast
      omega
    · simp only [worker_args, wrap_int]
      push_cast
      omega

/-- C13, as stated, fails: with `num_threads = 1073741824`, `num_bands = 2147483647` and
`thread_id = 1073741822`, the first five iterations store into the slots `1073741822`,
`2147483646`, `-1073741826` (the counter has wrapped around), `-2` and `1073741822`
again, and the loop never ends, whatever the fuel. -/
theorem visits_overflow_counterexample :
    (1 ≤ 1073741824 ∧ 1 ≤ 2147483647 ∧ 1073741822 < 1073741824) ∧
    wrap_int (2147483646 + 1073741824) = -1073741826 ∧
    (∀ (fuel : ℕ) (s : Shared),
      thread_fn toy_externals
          (worker_args 8 2 2147483647 1073741824 1 [1, 2] 1073741822) (fuel + 5) s =
        thread_fn_loop toy_externals
          (worker_args 8 2 2147483647 1073741824 1 [1, 2] 1073741822) fuel 2147483646
          (store_band toy_externals (worker_args 8 2 2147483647 1073741824 1 [1, 2] 1073741822)
            (store_band toy_externals
              (worker_args 8 2 2147483647 1073741824 1 [1, 2] 1073741822)
              (store_band toy_externals
                (worker_args 8 2 2147483647 1073741824 1 [1, 2] 1073741822)
                (store_band toy_externals
                  (worker_args 8 2 2147483647 1073741824 1 [1, 2] 1073741822)
                  (store_band toy_externals
                    (worker_args 8 2 2147483647 1073741824 1 [1, 2] 1073741822) s
                    1073741822)
                  2147483646)
                (-1073741826))
              (-2))
            1073741822)) ∧
    (∀ (fuel : ℕ) (s : Shared),
      thread_fn toy_externals
        (worker_args 8 2 2147483647 1073741824 1 [1, 2] 1073741822) fuel s = none) := by
  refine ⟨⟨by decide, by decide, by decide⟩, by decide, ?_, ?_⟩
  · intro fuel s
    have hnb : (((worker_args 8 2 2147483647 1073741824 1 [1, 2] 1073741822).num_bands : ℕ) : ℤ)
        = 2147483647 := rfl
    have hnt : (((worker_args 8 2 2147483647 1073741824 1 [1, 2]
        1073741822).num_threads : ℕ) : ℤ) = 1073741824 := rfl
    have w0 : wrap_int (1073741822 + 1073741824) = 2147483646 := by decide
    have w1 : wrap_int (2147483646 + 1073741824) = -1073741826 := by decide
    have w2 : wrap_int (-1073741826 + 1073741824) = -2 := by decide
    have w3 : wrap_int (-2 + 1073741824) = 1073741822 := by decide
    show thread_fn_loop _ _ (fuel + 4 + 1) 1073741822 s = _
    rw [thread_fn_loop_step _ _ _ _ _ (by rw [hnb]; decide), hnt, w0,
      thread_fn_loop_step _ _ _ _ _ (by rw [hnb]; decide), hnt, w1,
      thread_fn_loop_step _ _ _ _ _ (by rw [hnb]; decide), hnt, w2,
      thread_fn_loop_step _ _ _ _ _ (by rw [hnb]; decide), hnt, w3,
      thread_fn_loop_step _ _ _ _ _ (by rw [hnb]; decide), hnt, w0]
  · intro fuel s
    exact wrapped_counter_never_ends toy_externals 8 2 1 [1, 2] fuel 1073741822 s (by decide)
      (by decide) (by decide)

/-- C13, amended: for `num_threads ≥ 1` with `num_bands + num_threads ≤ 2^31` and
`thread_id < num_threads`, with more fuel than `num_bands` the loop of `thread_fn` ends,
and the bands it visits, in the order of the visits, are the list of all `b < num_bands`
with `b % num_threads = thread_id` in strictly increasing order; the list is empty when
`thread_id ≥ num_bands`. -/
theorem thread_fn_visits (ext : Externals) (Fs : ℚ) (filter_order num_bands num_threads
    num_procs : ℕ) (signal_data : List ℚ) (thread_id fuel : ℕ) (s : Shared)
    (hnt : 1 ≤ num_threads) (hbound : num_bands + num_threads ≤ 2147483648)
    (ht : thread_id < num_threads) (hfuel : num_bands < fuel) :
    ∃ (s' : Shared) (visited : List ℕ),
      thread_fn ext
          (worker_args Fs filter_order num_bands num_threads num_procs signal_data thread_id)
          fuel s = some s' ∧
      s'.writes = s.writes ++ visited.map (fun b : ℕ => (thread_id, (b : ℤ))) ∧
      visited = (List.range num_bands).filter (fun b => b % num_threads = thread_id) ∧
      visited.Sorted (fun a b => a < b) ∧
      (∀ b, b ∈ visited ↔ (b < num_bands ∧ b % num_threads = thread_id)) ∧
      (num_bands ≤ thread_id → visited = []) := by
  refine ⟨_, (List.range num_bands).filter (fun b => b % num_threads = thread_id),
    thread_fn_spec ext Fs filter_order num_bands num_threads num_procs signal_data thread_id
      fuel s hnt hbound ht hfuel, rfl, rfl,
    List.Sorted.filter _ (List.sorted_lt_range num_bands), ?_, ?_⟩
  · intro b
    simp [List.mem_filter]
  · intro hge
    rw [List.filter_eq_nil_iff]
    intro b hb hmod
    have hb' : b < num_bands := List.mem_range.mp hb
    have hmod' : b % num_threads = thread_id := by simpa using hmod
    have := Nat.mod_le b num_threads
    omega

theorem thread_fn_visits_witness :
    ∃ (s' : Shared) (visited : List ℕ),
      thread_fn toy_externals (worker_args 8 2 7 3 1 [1, 2] 1) 8 (calloc_table 7) = some s' ∧
      s'.writes = (calloc_table 7).writes ++ visited.map (fun b : ℕ => (1, (b : ℤ))) ∧
      visited = (List.range 7).filter (fun b => b % 3 = 1) ∧
      visited.Sorted (fun a b => a < b) ∧
      (∀ b, b ∈ visited ↔ (b < 7 ∧ b % 3 = 1)) ∧
      (7 ≤ 1 → visited = []) :=
  thread_fn_visits toy_externals 8 2 7 3 1 [1, 2] 1 8 (calloc_table 7) (by decide) (by decide)
    (by decide) (by decide)

/-! ## Band edges -/

/-- The band lines printed by the detection loop carry the edges `band_low` and
`band_high` of their band. -/
theorem detect_loop_edges (Fs : ℚ) (num_bands : ℕ) (band_power : List ℚ) (avg : ℚ) (n : ℕ) :
    ∀ l ∈ ((List.range n).foldl (detect_step Fs num_bands band_power avg)
        { lb := -1, ub := -1, wow := false, lines := [] }).lines,
      l.band_low = band_low Fs num_bands l.band ∧
      l.band_high = band_high Fs num_bands l.band := by
  induction n with
  | zero => intro l hl; simp at hl
  | succ n ih =>
    rw [List.range_succ, List.foldl_append, List.foldl_cons, List.foldl_nil, detect_step_eq]
    intro l hl
    split at hl
    · rcases List.mem_append.mp hl with h | h
      · exact ih l h
      · rw [List.mem_singleton.mp h]
        exact ⟨rfl, rfl⟩
    · rcases List.mem_append.mp hl with h | h
      · exact ih l h
      · rw [List.mem_singleton.mp h]
        exact ⟨rfl, rfl⟩

/-- C16: with `bandwidth = (Fs / 2) / num_bands`, `band_low(b) = b * bandwidth + 0.0001`
and `band_high(b) = (b + 1) * bandwidth - 0.0001`, used by both the workers and the
detection loop: for `Fs > 0` and `num_bands ≥ 1`, every `band_low(b)` is positive,
`band_low(b + 1) - band_high(b) = 0.0002`, and `band_low(b) < band_high(b)` for all bands
exactly when `bandwidth > 0.0002`; in that case a band ends before every later band
starts, edges increase with the band id, and every band lies inside `(0, Fs / 2)`. -/
theorem band_edges (Fs : ℚ) (num_bands : ℕ) (hFs : 0 < Fs) (hnb : 1 ≤ num_bands) :
    (bandwidth Fs num_bands = Fs / 2 / (num_bands : ℚ) ∧
      (∀ b, band_low Fs num_bands b = (b : ℚ) * bandwidth Fs num_bands + 1 / 10000) ∧
      (∀ b, band_high Fs num_bands b =
        ((b : ℚ) + 1) * bandwidth Fs num_bands - 1 / 10000)) ∧
    ((∀ (ext : Externals) (filter_order : ℕ) (signal_data : List ℚ) (b : ℕ),
        band_power_of ext Fs filter_order num_bands signal_data b =
          ext.convolve_and_compute_power signal_data filter_order
            (ext.hamming_window filter_order
              (ext.generate_band_pass Fs (band_low Fs num_bands b) (band_high Fs num_bands b)
                filter_order))) ∧
      (∀ (band_power : List ℚ), ∀ l ∈ (report Fs num_bands band_power).lines,
        l.band_low = band_low Fs num_bands l.band ∧
        l.band_high = band_high Fs num_bands l.band)) ∧
    (∀ b, 0 < band_low Fs num_bands b) ∧
    (∀ b, band_low Fs num_bands (b + 1) - band_high Fs num_bands b = 2 / 10000) ∧
    ((∀ b, b < num_bands → band_low Fs num_bands b < band_high Fs num_bands b) ↔
      bandwidth Fs num_bands > 2 / 10000) ∧
    (bandwidth Fs num_bands > 2 / 10000 →
      (∀ b c, b < c → band_high Fs num_bands b < band_low Fs num_bands c) ∧
      (∀ b c, b < c → band_low Fs num_bands b < band_low Fs num_bands c ∧
        band_high Fs num_bands b < band_high Fs num_bands c) ∧
      (∀ b, b < num_bands →
        0 < band_low Fs num_bands b ∧ band_low Fs num_bands b < band_high Fs num_bands b ∧
        band_high Fs num_bands b < Fs / 2)) := by
  have hbw : 0 ≤ bandwidth Fs num_bands := bandwidth_nonneg Fs num_bands hFs
  have hnbq : (num_bands : ℚ) ≠ 0 := by
    have : num_bands ≠ 0 := by omega
    exact_mod_cast this
  have htotal : (num_bands : ℚ) * bandwidth Fs num_bands = Fs / 2 := by
    unfold bandwidth
    field_simp
    ring
  have hmono : ∀ b c : ℕ, b < c →
      ((b : ℚ) + 1) * bandwidth Fs num_bands ≤ (c : ℚ) * bandwidth Fs num_bands := by
    intro b c hbc
    have hcast : (b : ℚ) + 1 ≤ (c : ℚ) := by exact_mod_cast hbc
    exact mul_le_mul_of_nonneg_right hcast hbw
  have hhigh : ∀ b, band_high Fs num_bands b =
      ((b : ℚ) + 1) * bandwidth Fs num_bands - 1 / 10000 := by
    intro b
    simp only [band_high]
    push_cast
    rfl
  refine ⟨⟨rfl, fun _ => rfl, hhigh⟩,
    ⟨fun _ _ _ _ => rfl,
      fun band_power => detect_loop_edges Fs num_bands band_power (avg_of band_power) num_bands⟩,
    fun b => band_low_pos Fs num_bands b hFs, ?_, ?_, ?_⟩
  · intro b
    rw [hhigh]
    simp only [band_low]
    push_cast
    ring
  · constructor
    · intro h
      have h0 := h 0 (by omega)
      rw [hhigh] at h0
      simp only [band_low] at h0
      push_cast at h0
      linarith
    · intro h b _
      rw [hhigh]
      simp only [band_low]
      linarith
  · intro h
    refine ⟨?_, ?_, ?_⟩
    · intro b c hbc
      rw [hhigh]
      simp only [band_low]
      linarith [hmono b c hbc]
    · intro b c hbc
      rw [hhigh, hhigh]
      simp only [band_low]
      have h1 := hmono b c hbc
      constructor <;> linarith
    · intro b hb
      refine ⟨band_low_pos Fs num_bands b hFs, ?_, ?_⟩
      · rw [hhigh]
        simp only [band_low]
        linarith
      · rw [hhigh]
        have hle : ((b : ℚ) + 1) * bandwidth Fs num_bands ≤
            (num_bands : ℚ) * bandwidth Fs num_bands := hmono b num_bands hb
        linarith

theorem band_edges_witness :
    (∀ b c, b < c → band_high 320000 8 b < band_low 320000 8 c) ∧
    (∀ b c, b < c → band_low 320000 8 b < band_low 320000 8 c ∧
      band_high 320000 8 b < band_high 320000 8 c) ∧
    (∀ b, b < 8 →
      0 < band_low 320000 8 b ∧ band_low 320000 8 b < band_high 320000 8 b ∧
      band_high 320000 8 b < 320000 / 2) :=
  (band_edges 320000 8 (by norm_num) (by norm_num)).2.2.2.2.2 (by norm_num [bandwidth])

/-! ## Command line -/

/-- C11: with eight arguments, if one of the five configuration constraints fails,
`main` is aborted by an assertion having printed nothing, whatever the loaders and the
workers would do (they are not reached); and if all five hold, no assertion aborts it. -/
theorem config_violation_aborts (ext : Externals) (a : Args) (order : List ℕ)
    (hargc : a.argc = 8) :
    (¬ (a.Fs > 0 ∧ (a.filter_order > 0 ∧ a.filter_order % 2 = 0) ∧ a.num_bands > 0 ∧
        a.num_threads > 0 ∧ a.num_procs > 0) →
      main ext a order = { exit := Exit.aborted, out := [] }) ∧
    ((a.Fs > 0 ∧ (a.filter_order > 0 ∧ a.filter_order % 2 = 0) ∧ a.num_bands > 0 ∧
        a.num_threads > 0 ∧ a.num_procs > 0) →
      (main ext a order).exit ≠ Exit.aborted) := by
  have hne : ¬ a.argc ≠ 8 := not_not.mpr hargc
  constructor
  · intro hbad
    unfold main
    rw [if_neg hne]
    by_cases h1 : a.Fs > 0
    · by_cases h2 : a.filter_order > 0 ∧ a.filter_order % 2 = 0
      · by_cases h3 : a.num_bands > 0
        · by_cases h4 : a.num_threads > 0
          · by_cases h5 : a.num_procs > 0
            · exact absurd ⟨h1, h2, h3, h4, h5⟩ hbad
            · simp only [h1, h2, h3, h4, h5, not_true_eq_false, not_false_eq_true, if_true,
                if_false, and_self]
          · simp only [h1, h2, h3, h4, not_true_eq_false, not_false_eq_true, if_true,
              if_false, and_self]
        · simp only [h1, h2, h3, not_true_eq_false, not_false_eq_true, if_true, if_false,
            and_self]
      · simp only [h1, h2, not_true_eq_false, not_false_eq_true, if_true, if_false]
    · simp only [h1, not_false_eq_true, if_true]
  · rintro ⟨h1, h2, h3, h4, h5⟩
    unfold main
    rw [if_neg hne, if_neg (not_not.mpr h1), if_neg (not_not.mpr h2),
      if_neg (not_not.mpr h3), if_neg (not_not.mpr h4), if_neg (not_not.mpr h5)]
    simp only []
    split
    · exact fun h => Exit.noConfusion h
    · exact fun h => Exit.noConfusion h
    · split
      · exact fun h => Exit.noConfusion h
      · exact fun h => Exit.noConfusion h

theorem config_violation_aborts_witness :
    main toy_externals
        { argc := 8, type_arg := "text", sig_file := "sig.txt", Fs := 44100,
          filter_order := 3, num_bands := 4, num_threads := 2, num_procs := 1 } [0, 1] =
      { exit := Exit.aborted, out := [] } :=
  (config_violation_aborts toy_externals
    { argc := 8, type_arg := "text", sig_file := "sig.txt", Fs := 44100, filter_order := 3,
      num_bands := 4, num_threads := 2, num_procs := 1 } [0, 1] rfl).1
    (by
      rintro ⟨_, ⟨_, h⟩, _⟩
      exact absurd h (by decide))

/-- What `toupper` maps to `T`, `B` and `M`. -/
theorem toUpper_eq_iff (c : Char) :
    (c.toUpper = 'T' ↔ (c = 'T' ∨ c = 't')) ∧ (c.toUpper = 'B' ↔ (c = 'B' ∨ c = 'b')) ∧
    (c.toUpper = 'M' ↔ (c = 'M' ∨ c = 'm')) := by
  have hc : Char.ofNat c.toNat = c := Char.ofNat_toNat c
  by_cases h : 97 ≤ c.toNat ∧ c.toNat ≤ 122
  · obtain ⟨h1, h2⟩ := h
    rw [← hc]
    generalize c.toNat = n at h1 h2
    interval_cases n <;> decide
  · have hup : c.toUpper = c := by
      unfold Char.toUpper
      simp only []
      rw [if_neg h]
    rw [hup]
    have ht : c ≠ 't' := by
      rintro rfl
      exact h (by decide)
    have hb : c ≠ 'b' := by
      rintro rfl
      exact h (by decide)
    have hm : c ≠ 'm' := by
      rintro rfl
      exact h (by decide)
    simp [ht, hb, hm]

/-- C12, as stated, fails: the type argument `banana` is none of `text`, `binary`,
`mapped` (nor `bin`, `mmap` of the usage line); `main` takes it for a binary signal, loads
it, removes the DC component and returns `0`. -/
theorem unknown_type_accepted :
    "banana" ≠ "text" ∧ "banana" ≠ "binary" ∧ "banana" ≠ "mapped" ∧
    "banana" ≠ "bin" ∧ "banana" ≠ "mmap" ∧
    sig_type_of "banana" = 'B' ∧
    (main toy_externals
        { argc := 8, type_arg := "banana", sig_file := "sig.dat", Fs := 8, filter_order := 2,
          num_bands := 5, num_threads := 2, num_procs := 1 } [0, 1]).exit =
      Exit.returned 0 ∧
    Out.removing_dc 2 ∈
      (main toy_externals
        { argc := 8, type_arg := "banana", sig_file := "sig.dat", Fs := 8, filter_order := 2,
          num_bands := 5, num_threads := 2, num_procs := 1 } [0, 1]).out ∧
    Out.unknown_signal_type ∉
      (main toy_externals
        { argc := 8, type_arg := "banana", sig_file := "sig.dat", Fs := 8, filter_order := 2,
          num_bands := 5, num_threads := 2, num_procs := 1 } [0, 1]).out := by
  refine ⟨by decide, by decide, by decide, by decide, by decide, by decide, ?_, ?_, ?_⟩
  · decide!
  · decide!
  · decide!

/-- C12, amended: with eight arguments and a configuration that passes the assertions,
if the type argument is empty or its first character is none of `t`, `T`, `b`, `B`, `m`,
`M`, then `main` prints the parameter summary, `Load or map file` and
`Unknown signal type` and returns `-1`, whatever the loaders and the workers would do
(they are not reached); a type argument that starts with one of the six letters selects
a loader, whatever follows the letter. -/
theorem unknown_type_rejected (ext : Externals) (a : Args) (order : List ℕ)
    (hargc : a.argc = 8) (hFs : a.Fs > 0)
    (hfo : a.filter_order > 0 ∧ a.filter_order % 2 = 0) (hnb : a.num_bands > 0)
    (hnt : a.num_threads > 0) (hnp : a.num_procs > 0) :
    ((∀ c rest, a.type_arg.data = c :: rest →
        c ≠ 't' ∧ c ≠ 'T' ∧ c ≠ 'b' ∧ c ≠ 'B' ∧ c ≠ 'm' ∧ c ≠ 'M') →
      main ext a order =
        { exit := Exit.returned (-1)
          out :=
            [Out.header (sig_type_of a.type_arg) a.sig_file a.Fs a.filter_order a.num_bands
                a.num_threads a.num_procs,
              Out.load_or_map, Out.unknown_signal_type] }) ∧
    (∀ c rest, a.type_arg.data = c :: rest →
      (c = 't' ∨ c = 'T' ∨ c = 'b' ∨ c = 'B' ∨ c = 'm' ∨ c = 'M') →
      load_signal ext (sig_type_of a.type_arg) a.sig_file ≠ none) := by
  constructor
  · intro hfirst
    have htype : sig_type_of a.type_arg ≠ 'T' ∧ sig_type_of a.type_arg ≠ 'B' ∧
        sig_type_of a.type_arg ≠ 'M' := by
      unfold sig_type_of
      cases hdata : a.type_arg.data with
      | nil => exact ⟨by decide, by decide, by decide⟩
      | cons c rest =>
        obtain ⟨h1, h2, h3, h4, h5, h6⟩ := hfirst c rest hdata
        obtain ⟨hT, hB, hM⟩ := toUpper_eq_iff c
        simp only [List.headD_cons]
        refine ⟨fun h => ?_, fun h => ?_, fun h => ?_⟩
        · rcases hT.mp h with h | h
          · exact h2 h
          · exact h1 h
        · rcases hB.mp h with h | h
          · exact h4 h
          · exact h3 h
        · rcases hM.mp h with h | h
          · exact h6 h
          · exact h5 h
    have hload : load_signal ext (sig_type_of a.type_arg) a.sig_file = none := by
      unfold load_signal
      rw [if_neg htype.1, if_neg htype.2.1, if_neg htype.2.2]
    unfold main
    rw [if_neg (by omega), if_neg (not_not.mpr hFs), if_neg (not_not.mpr hfo),
      if_neg (not_not.mpr hnb), if_neg (not_not.mpr hnt), if_neg (not_not.mpr hnp)]
    simp only [hload]
    rfl
  · intro c rest hdata hc
    obtain ⟨hT, hB, hM⟩ := toUpper_eq_iff c
    have hsig : sig_type_of a.type_arg = c.toUpper := by
      unfold sig_type_of
      rw [hdata]
      rfl
    have hcases : c.toUpper = 'T' ∨ c.toUpper = 'B' ∨ c.toUpper = 'M' := by
      rcases hc with h | h | h | h | h | h
      · exact Or.inl (hT.mpr (Or.inr h))
      · exact Or.inl (hT.mpr (Or.inl h))
      · exact Or.inr (Or.inl (hB.mpr (Or.inr h)))
      · exact Or.inr (Or.inl (hB.mpr (Or.inl h)))
      · exact Or.inr (Or.inr (hM.mpr (Or.inr h)))
      · exact Or.inr (Or.inr (hM.mpr (Or.inl h)))
    unfold load_signal
    rw [hsig]
    rcases hcases with h | h | h
    · rw [if_pos h]; exact fun h' => Option.noConfusion h'
    · by_cases hT' : c.toUpper = 'T'
      · rw [if_pos hT']; exact fun h' => Option.noConfusion h'
      · rw [if_neg hT', if_pos h]; exact fun h' => Option.noConfusion h'
    · by_cases hT' : c.toUpper = 'T'
      · rw [if_pos hT']; exact fun h' => Option.noConfusion h'
      · by_cases hB' : c.toUpper = 'B'
        · rw [if_neg hT', if_pos hB']; exact fun h' => Option.noConfusion h'
        · rw [if_neg hT', if_neg hB', if_pos h]; exact fun h' => Option.noConfusion h'

theorem unknown_type_rejected_witness :
    main toy_externals
        { argc := 8, type_arg := "wav", sig_file := "sig.wav", Fs := 44100,
          filter_order := 4, num_bands := 4, num_threads := 2, num_procs := 1 } [0, 1] =
      { exit := Exit.returned (-1)
        out := [Out.header 'W' "sig.wav" 44100 4 4 2 1, Out.load_or_map,
          Out.unknown_signal_type] } :=
  (unknown_type_rejected toy_externals
    { argc := 8, type_arg := "wav", sig_file := "sig.wav", Fs := 44100, filter_order := 4,
      num_bands := 4, num_threads := 2, num_procs := 1 } [0, 1] rfl
    (by show (44100 : ℚ) > 0; norm_num) (by decide) (by decide) (by decide) (by decide)).1
    (by
      intro c rest h
      have hc : c = 'w' := by
        have h' : ("wav" : String).data = c :: rest := h
        simp only [String.data] at h'
        cases h'
        rfl
      subst hc
      decide)

end PBandScan
